import Mathlib

/-!
Verification of the market keeper of this repository (package `keeper` in the
sources): the Order/Bid/Lease ledgers over a prefix-iterable key-value store,
shallowly embedded in Lean.

The keeper functions (`CreateOrder`, `CreateBid`, `CreateLease`, the
`On*` state-marking functions, `OnGroupClosed`, the `Get*` lookups,
`LeaseForOrder` and the `With*` visitors) are translated from the Go source.
The entity records, their state enumerations and the identifier types are not
part of the provided sources (only the `keeper` package is); they are modelled
from the spec (data-model section): addresses are modelled as naturals, the
opaque `GroupSpec` as a natural, prices as naturals, and the zero value of a
state field is the Open/Active state.  The store is modelled as three lists
kept sorted by the big-endian key encoding, so that prefix iteration is the
ascending traversal of a list and `Set` is an ordered insert-or-replace.
-/

namespace Market

/-- Comparison of naturals, standing in for byte comparison of the fixed-width
big-endian encodings used in store keys. -/
def cmpNat (a b : Nat) : Ordering :=
  if a < b then .lt else if a = b then .eq else .gt

/-- Lexicographic composition of comparisons, as induced by concatenating the
big-endian encodings of successive ID components. -/
def lexComp (x y : Ordering) : Ordering :=
  match x with
  | .eq => y
  | o => o

/-- GroupID: owner address, deployment sequence, group sequence. -/
structure GroupID where
  owner : Nat
  dseq : Nat
  gseq : Nat
deriving DecidableEq

/-- OrderID: GroupID plus order sequence. -/
structure OrderID where
  gid : GroupID
  oseq : Nat
deriving DecidableEq

/-- BidID: OrderID plus provider address. -/
structure BidID where
  oid : OrderID
  provider : Nat
deriving DecidableEq

/-- LeaseID has exactly the components of the winning BidID. -/
abbrev LeaseID := BidID

/-- Key comparison for group IDs. -/
def cmpGroupID (a b : GroupID) : Ordering :=
  lexComp (cmpNat a.owner b.owner) (lexComp (cmpNat a.dseq b.dseq) (cmpNat a.gseq b.gseq))

/-- Key comparison for order IDs (group components first, then `oseq`). -/
def cmpOrderID (a b : OrderID) : Ordering :=
  lexComp (cmpGroupID a.gid b.gid) (cmpNat a.oseq b.oseq)

/-- Key comparison for bid IDs (order components first, then provider). -/
def cmpBidID (a b : BidID) : Ordering :=
  lexComp (cmpOrderID a.oid b.oid) (cmpNat a.provider b.provider)

theorem cmpNat_eq_iff (a b : Nat) : cmpNat a b = .eq ↔ a = b := by
  unfold cmpNat; split_ifs <;> simp_all <;> omega

theorem cmpNat_lt_iff (a b : Nat) : cmpNat a b = .lt ↔ a < b := by
  unfold cmpNat; split_ifs <;> simp_all

theorem cmpNat_gt_iff (a b : Nat) : cmpNat a b = .gt ↔ b < a := by
  unfold cmpNat; split_ifs <;> simp_all <;> omega

theorem lexComp_eq_iff (x y : Ordering) : lexComp x y = .eq ↔ x = .eq ∧ y = .eq := by
  cases x <;> simp [lexComp]

theorem lexComp_lt_iff (x y : Ordering) : lexComp x y = .lt ↔ x = .lt ∨ (x = .eq ∧ y = .lt) := by
  cases x <;> simp [lexComp]

theorem lexComp_gt_iff (x y : Ordering) : lexComp x y = .gt ↔ x = .gt ∨ (x = .eq ∧ y = .gt) := by
  cases x <;> simp [lexComp]

theorem cmpGroupID_eq_iff (a b : GroupID) : cmpGroupID a b = .eq ↔ a = b := by
  cases a; cases b
  simp [cmpGroupID, lexComp_eq_iff, cmpNat_eq_iff, GroupID.mk.injEq, and_assoc]

theorem cmpGroupID_lt_iff (a b : GroupID) :
    cmpGroupID a b = .lt ↔
      a.owner < b.owner ∨ (a.owner = b.owner ∧
        (a.dseq < b.dseq ∨ (a.dseq = b.dseq ∧ a.gseq < b.gseq))) := by
  simp [cmpGroupID, lexComp_lt_iff, lexComp_eq_iff, cmpNat_lt_iff, cmpNat_eq_iff]

theorem cmpGroupID_gt_iff (a b : GroupID) : cmpGroupID a b = .gt ↔ cmpGroupID b a = .lt := by
  simp [cmpGroupID, lexComp_lt_iff, lexComp_eq_iff, lexComp_gt_iff,
    cmpNat_lt_iff, cmpNat_eq_iff, cmpNat_gt_iff]
  omega

theorem cmpGroupID_lt_trans {a b c : GroupID} :
    cmpGroupID a b = .lt → cmpGroupID b c = .lt → cmpGroupID a c = .lt := by
  simp only [cmpGroupID_lt_iff]; omega

theorem cmpOrderID_eq_iff (a b : OrderID) : cmpOrderID a b = .eq ↔ a = b := by
  cases a; cases b
  simp [cmpOrderID, lexComp_eq_iff, cmpGroupID_eq_iff, cmpNat_eq_iff, OrderID.mk.injEq]

theorem cmpOrderID_lt_iff (a b : OrderID) :
    cmpOrderID a b = .lt ↔
      cmpGroupID a.gid b.gid = .lt ∨ (a.gid = b.gid ∧ a.oseq < b.oseq) := by
  simp [cmpOrderID, lexComp_lt_iff, cmpGroupID_eq_iff, cmpNat_lt_iff]

theorem cmpOrderID_gt_iff (a b : OrderID) : cmpOrderID a b = .gt ↔ cmpOrderID b a = .lt := by
  simp only [cmpOrderID, lexComp_gt_iff, lexComp_lt_iff, cmpGroupID_gt_iff,
    cmpGroupID_eq_iff, cmpNat_gt_iff, cmpNat_lt_iff]
  constructor
  · rintro (h | ⟨h, h2⟩)
    · exact Or.inl h
    · exact Or.inr ⟨h.symm, h2⟩
  · rintro (h | ⟨h, h2⟩)
    · exact Or.inl h
    · exact Or.inr ⟨h.symm, h2⟩

theorem cmpOrderID_lt_trans {a b c : OrderID} :
    cmpOrderID a b = .lt → cmpOrderID b c = .lt → cmpOrderID a c = .lt := by
  simp only [cmpOrderID_lt_iff]
  rintro (h1 | ⟨e1, h1⟩) (h2 | ⟨e2, h2⟩)
  · exact Or.inl (cmpGroupID_lt_trans h1 h2)
  · exact Or.inl (e2 ▸ h1)
  · exact Or.inl (e1 ▸ h2)
  · exact Or.inr ⟨e1.trans e2, h1.trans h2⟩

theorem cmpBidID_eq_iff (a b : BidID) : cmpBidID a b = .eq ↔ a = b := by
  cases a; cases b
  simp [cmpBidID, lexComp_eq_iff, cmpOrderID_eq_iff, cmpNat_eq_iff, BidID.mk.injEq]

theorem cmpBidID_lt_iff (a b : BidID) :
    cmpBidID a b = .lt ↔
      cmpOrderID a.oid b.oid = .lt ∨ (a.oid = b.oid ∧ a.provider < b.provider) := by
  simp [cmpBidID, lexComp_lt_iff, cmpOrderID_eq_iff, cmpNat_lt_iff]

theorem cmpBidID_gt_iff (a b : BidID) : cmpBidID a b = .gt ↔ cmpBidID b a = .lt := by
  simp only [cmpBidID, lexComp_gt_iff, lexComp_lt_iff, cmpOrderID_gt_iff,
    cmpOrderID_eq_iff, cmpNat_gt_iff, cmpNat_lt_iff]
  constructor
  · rintro (h | ⟨h, h2⟩)
    · exact Or.inl h
    · exact Or.inr ⟨h.symm, h2⟩
  · rintro (h | ⟨h, h2⟩)
    · exact Or.inl h
    · exact Or.inr ⟨h.symm, h2⟩

theorem cmpBidID_lt_trans {a b c : BidID} :
    cmpBidID a b = .lt → cmpBidID b c = .lt → cmpBidID a c = .lt := by
  simp only [cmpBidID_lt_iff]
  rintro (h1 | ⟨e1, h1⟩) (h2 | ⟨e2, h2⟩)
  · exact Or.inl (cmpOrderID_lt_trans h1 h2)
  · exact Or.inl (e2 ▸ h1)
  · exact Or.inl (e1 ▸ h2)
  · exact Or.inr ⟨e1.trans e2, h1.trans h2⟩

section Store

variable {α κ : Type} [DecidableEq κ]

/-- Model of `store.Set`: insert into a key-sorted list, replacing any entry
that already carries the same key (the store maps each key to one value). -/
def sinsert (key : α → κ) (cmpk : κ → κ → Ordering) (a : α) : List α → List α
  | [] => [a]
  | x :: xs =>
    match cmpk (key a) (key x) with
    | .lt => a :: x :: xs
    | .eq => a :: xs
    | .gt => x :: sinsert key cmpk a xs

/-- Model of `store.Has`/`store.Get` at one key: first entry carrying it. -/
def kfind (key : α → κ) (i : κ) (l : List α) : Option α :=
  l.find? (fun x => decide (key x = i))

/-- The store invariant: entries are strictly ascending in key order. -/
def SortedKeys (key : α → κ) (cmpk : κ → κ → Ordering) (l : List α) : Prop :=
  l.Pairwise (fun x y => cmpk (key x) (key y) = .lt)

theorem mem_sinsert {key : α → κ} {cmpk : κ → κ → Ordering} {a b : α} :
    ∀ {l : List α}, b ∈ sinsert key cmpk a l → b = a ∨ b ∈ l := by
  intro l
  induction l with
  | nil => intro h; simpa [sinsert] using h
  | cons x xs ih =>
    intro h
    simp only [sinsert] at h
    cases hc : cmpk (key a) (key x) <;> rw [hc] at h <;>
      simp only [List.mem_cons] at h ⊢
    · rcases h with h | h | h
      · exact Or.inl h
      · exact Or.inr (Or.inl h)
      · exact Or.inr (Or.inr h)
    · rcases h with h | h
      · exact Or.inl h
      · exact Or.inr (Or.inr h)
    · rcases h with h | h
      · exact Or.inr (Or.inl h)
      · rcases ih h with h2 | h2
        · exact Or.inl h2
        · exact Or.inr (Or.inr h2)

theorem sinsert_sorted {key : α → κ} {cmpk : κ → κ → Ordering}
    (heq : ∀ p q, cmpk p q = .eq ↔ p = q)
    (hgt : ∀ p q, cmpk p q = .gt ↔ cmpk q p = .lt)
    (htr : ∀ {p q r}, cmpk p q = .lt → cmpk q r = .lt → cmpk p r = .lt)
    (a : α) :
    ∀ {l : List α}, SortedKeys key cmpk l → SortedKeys key cmpk (sinsert key cmpk a l) := by
  intro l
  induction l with
  | nil => intro _; simp [sinsert, SortedKeys]
  | cons x xs ih =>
    intro hs
    rcases hs with _ | ⟨hx, hxs⟩
    simp only [sinsert]
    rcases hc : cmpk (key a) (key x) with _ | _ | _
    · refine List.Pairwise.cons ?_ (List.Pairwise.cons hx hxs)
      intro y hy
      rcases List.mem_cons.mp hy with hy | hy
      · simpa [hy] using hc
      · exact htr hc (hx y hy)
    · refine List.Pairwise.cons ?_ hxs
      intro y hy
      have hk : key a = key x := (heq _ _).mp hc
      rw [hk]
      exact hx y hy
    · refine List.Pairwise.cons ?_ (ih hxs)
      intro y hy
      rcases mem_sinsert hy with hy2 | hy2
      · subst hy2; exact (hgt _ _).mp hc
      · exact hx y hy2

theorem kfind_sinsert_self {key : α → κ} {cmpk : κ → κ → Ordering}
    (heq : ∀ p q, cmpk p q = .eq ↔ p = q)
    (hgt : ∀ p q, cmpk p q = .gt ↔ cmpk q p = .lt)
    (a : α) :
    ∀ (l : List α), kfind key (key a) (sinsert key cmpk a l) = some a := by
  intro l
  induction l with
  | nil => simp [sinsert, kfind]
  | cons x xs ih =>
    simp only [sinsert]
    cases hc : cmpk (key a) (key x)
    · simp [kfind]
    · simp [kfind]
    · have hne : key x ≠ key a := by
        intro h
        have h2 : cmpk (key x) (key a) = .eq := (heq _ _).mpr h
        rw [(hgt _ _).mp hc] at h2
        exact absurd h2 (by simp)
      unfold kfind at ih ⊢
      rw [List.find?_cons_of_neg _ (by simp [hne])]
      exact ih

theorem kfind_sinsert_ne {key : α → κ} {cmpk : κ → κ → Ordering}
    (heq : ∀ p q, cmpk p q = .eq ↔ p = q)
    {a : α} {i : κ} (hne : i ≠ key a) :
    ∀ (l : List α), kfind key i (sinsert key cmpk a l) = kfind key i l := by
  intro l
  induction l with
  | nil =>
    have hne2 : key a ≠ i := fun h => hne h.symm
    simp [sinsert, kfind, hne2]
  | cons x xs ih =>
    have hne2 : key a ≠ i := fun h => hne h.symm
    simp only [sinsert]
    cases hc : cmpk (key a) (key x)
    · unfold kfind
      rw [List.find?_cons_of_neg _ (by simp [hne2])]
    · have hk : key a = key x := (heq _ _).mp hc
      have hxne : key x ≠ i := by rw [← hk]; exact hne2
      unfold kfind
      rw [List.find?_cons_of_neg _ (by simp [hne2]),
        List.find?_cons_of_neg _ (by simp [hxne])]
    · unfold kfind at ih ⊢
      by_cases hx : key x = i
      · rw [List.find?_cons_of_pos _ (by simp [hx]),
          List.find?_cons_of_pos _ (by simp [hx])]
      · rw [List.find?_cons_of_neg _ (by simp [hx]),
          List.find?_cons_of_neg _ (by simp [hx])]
        exact ih

theorem kfind_eq_some {key : α → κ} {i : κ} {x : α} {l : List α}
    (h : kfind key i l = some x) : x ∈ l ∧ key x = i := by
  refine ⟨List.mem_of_find?_eq_some h, ?_⟩
  have := List.find?_some h
  simpa using this

theorem kfind_none_iff {key : α → κ} {i : κ} {l : List α} :
    kfind key i l = none ↔ ∀ x ∈ l, key x ≠ i := by
  simp [kfind, List.find?_eq_none]

theorem sortedKeys_unique {key : α → κ} {cmpk : κ → κ → Ordering}
    (heq : ∀ p q, cmpk p q = .eq ↔ p = q)
    {l : List α} (hs : SortedKeys key cmpk l) {x y : α}
    (hx : x ∈ l) (hy : y ∈ l) (hk : key x = key y) : x = y := by
  induction l with
  | nil => cases hx
  | cons z zs ih =>
    rcases hs with _ | ⟨hz, hzs⟩
    rcases List.mem_cons.mp hx with hx1 | hx1
    · rcases List.mem_cons.mp hy with hy1 | hy1
      · rw [hx1, hy1]
      · exfalso
        have h1 : cmpk (key z) (key y) = .lt := hz y hy1
        rw [← hx1] at h1
        rw [(heq _ _).mpr hk] at h1
        exact absurd h1 (by simp)
    · rcases List.mem_cons.mp hy with hy1 | hy1
      · exfalso
        have h1 : cmpk (key z) (key x) = .lt := hz x hx1
        rw [← hy1] at h1
        rw [(heq _ _).mpr hk.symm] at h1
        exact absurd h1 (by simp)
      · exact ih hzs hx1 hy1

theorem kfind_mem {key : α → κ} {cmpk : κ → κ → Ordering}
    (heq : ∀ p q, cmpk p q = .eq ↔ p = q)
    {l : List α} (hs : SortedKeys key cmpk l) {x : α} (hx : x ∈ l) :
    kfind key (key x) l = some x := by
  induction l with
  | nil => cases hx
  | cons z zs ih =>
    rcases hs with _ | ⟨hz, hzs⟩
    rcases List.mem_cons.mp hx with hx | hx
    · subst hx
      unfold kfind
      rw [List.find?_cons_of_pos _ (by simp)]
    · have hne : key z ≠ key x := by
        intro h
        have h1 : cmpk (key z) (key x) = .lt := hz x hx
        rw [(heq _ _).mpr h] at h1
        exact absurd h1 (by simp)
      unfold kfind at ih ⊢
      rw [List.find?_cons_of_neg _ (by simp [hne])]
      exact ih hzs hx

theorem sinsert_replace {key : α → κ} {cmpk : κ → κ → Ordering}
    (heq : ∀ p q, cmpk p q = .eq ↔ p = q)
    (hgt : ∀ p q, cmpk p q = .gt ↔ cmpk q p = .lt)
    (htr : ∀ {p q r}, cmpk p q = .lt → cmpk q r = .lt → cmpk p r = .lt)
    {a x0 : α} :
    ∀ {l : List α}, SortedKeys key cmpk l → x0 ∈ l → key x0 = key a →
      sinsert key cmpk a l = l.map (fun y => if key y = key a then a else y) := by
  intro l
  induction l with
  | nil => intro _ h; cases h
  | cons x xs ih =>
    intro hs hx0 hk
    rcases hs with _ | ⟨hx, hxs⟩
    simp only [sinsert]
    rcases hc : cmpk (key a) (key x) with _ | _ | _
    · exfalso
      rcases List.mem_cons.mp hx0 with h0 | h0
      · have h2 : cmpk (key a) (key x) = .eq := (heq _ _).mpr (h0 ▸ hk).symm
        rw [hc] at h2
        exact absurd h2 (by simp)
      · have h1 : cmpk (key x) (key x0) = .lt := hx x0 h0
        have h2 : cmpk (key a) (key x0) = .lt := htr hc h1
        rw [(heq _ _).mpr hk.symm] at h2
        exact absurd h2 (by simp)
    · have hkx : key a = key x := (heq _ _).mp hc
      have hall : ∀ y ∈ xs, key y ≠ key a := by
        intro y hy h
        have h1 : cmpk (key x) (key y) = .lt := hx y hy
        rw [← hkx] at h1
        rw [(heq _ _).mpr h.symm] at h1
        exact absurd h1 (by simp)
      have hmap : xs.map (fun y => if key y = key a then a else y) = xs := by
        have h2 : xs.map (fun y => if key y = key a then a else y) = xs.map id :=
          List.map_congr_left (fun y hy => by simp [hall y hy])
        rw [h2, List.map_id]
      rw [List.map_cons, if_pos hkx.symm, hmap]
    · have hne : key x ≠ key a := by
        intro h
        have h2 : cmpk (key a) (key x) = .eq := (heq _ _).mpr h.symm
        rw [hc] at h2
        exact absurd h2 (by simp)
      rw [List.map_cons, if_neg hne]
      show x :: sinsert key cmpk a xs =
        x :: List.map (fun y => if key y = key a then a else y) xs
      congr 1
      rcases List.mem_cons.mp hx0 with h0 | h0
      · exfalso; subst h0; exact hne hk
      · exact ih hxs h0 hk

theorem sinsert_fresh_countP {key : α → κ} {cmpk : κ → κ → Ordering}
    (heq : ∀ p q, cmpk p q = .eq ↔ p = q)
    (p : α → Bool) {a : α} :
    ∀ {l : List α}, (∀ x ∈ l, key x ≠ key a) →
      (sinsert key cmpk a l).countP p = l.countP p + (if p a then 1 else 0) := by
  intro l
  induction l with
  | nil => intro _; simp [sinsert, List.countP_cons]
  | cons x xs ih =>
    intro hfresh
    simp only [sinsert]
    rcases hc : cmpk (key a) (key x) with _ | _ | _
    · show List.countP p (a :: x :: xs) = _
      rw [List.countP_cons]
    · exfalso
      exact hfresh x (by simp) ((heq _ _).mp hc).symm
    · show List.countP p (x :: sinsert key cmpk a xs) = _
      rw [List.countP_cons, List.countP_cons,
        ih (fun y hy => hfresh y (by simp [hy]))]
      omega

theorem kfind_map {key : α → κ} {i : κ} (f : α → α) (hf : ∀ y, key (f y) = key y) :
    ∀ (l : List α), kfind key i (l.map f) = (kfind key i l).map f := by
  intro l
  induction l with
  | nil => simp [kfind]
  | cons x xs ih =>
    simp only [kfind, List.map, List.find?] at ih ⊢
    by_cases hx : key x = i
    · simp [hf, hx]
    · simp [hf, hx, ih]

theorem sortedKeys_map {key : α → κ} {cmpk : κ → κ → Ordering}
    {f : α → α} (hf : ∀ y, key (f y) = key y) {l : List α}
    (hs : SortedKeys key cmpk l) : SortedKeys key cmpk (l.map f) := by
  unfold SortedKeys at hs ⊢
  rw [List.pairwise_map]
  exact hs.imp (fun {x y} h => by rw [hf, hf]; exact h)

end Store

/-! Entity data model, modelled from the spec (the `types` package is not in
the provided sources).  The zero value of a state field is the first
enumerated state (Open for orders and bids, Active for leases), which is the
state the `Create*` keeper functions leave in the stored record. -/

/-- Order states: Open, Matched, Closed. -/
inductive OrderState where
  | opened
  | matched
  | closed
deriving DecidableEq

/-- Bid states: Open, Matched, Lost, Closed. -/
inductive BidState where
  | opened
  | matched
  | lost
  | closed
deriving DecidableEq

/-- Lease states: Active, InsufficientFunds, Closed. -/
inductive LeaseState where
  | active
  | insufficientFunds
  | closed
deriving DecidableEq

/-- Order record: ID, opaque group spec, state, StartAt height. -/
structure Order where
  id : OrderID
  spec : Nat
  state : OrderState
  startAt : Int
deriving DecidableEq

/-- Bid record: ID (order plus provider), price, state. -/
structure Bid where
  id : BidID
  price : Nat
  state : BidState
deriving DecidableEq

/-- Lease record: ID (same components as the winning bid), price, state. -/
structure Lease where
  id : LeaseID
  price : Nat
  state : LeaseState
deriving DecidableEq

/-- Replace only the State field of an order. -/
def Order.withState (o : Order) (s : OrderState) : Order :=
  ⟨o.id, o.spec, s, o.startAt⟩

/-- Replace only the State field of a bid. -/
def Bid.withState (b : Bid) (s : BidState) : Bid :=
  ⟨b.id, b.price, s⟩

/-- Replace only the State field of a lease. -/
def Lease.withState (l : Lease) (s : LeaseState) : Lease :=
  ⟨l.id, l.price, s⟩

/-- Events emitted through the EventSink, as in the Go source.  Note that
`OnInsufficientFunds` emits `EventLeaseClosed`, exactly as the source does. -/
inductive Event where
  | orderCreated (id : OrderID)
  | orderClosed (id : OrderID)
  | bidCreated (id : BidID)
  | bidClosed (id : BidID)
  | leaseCreated (id : LeaseID)
  | leaseClosed (id : LeaseID)
deriving DecidableEq

/-- The keeper context: the three store sections (each kept in ascending key
order, as the byte-encoded keys under the three type-tag byte ranges are),
the events emitted so far, and the logical block height. -/
structure Ctx where
  orders : List Order
  bids : List Bid
  leases : List Lease
  events : List Event
  blockHeight : Int
deriving DecidableEq

/-- Source constant `orderTTL = 5` blocks. -/
def orderTTL : Int := 5

def insOrder (o : Order) (l : List Order) : List Order :=
  sinsert (fun x => x.id) cmpOrderID o l

def insBid (b : Bid) (l : List Bid) : List Bid :=
  sinsert (fun x => x.id) cmpBidID b l

def insLease (x : Lease) (l : List Lease) : List Lease :=
  sinsert (fun y => y.id) cmpBidID x l

/-- Source function `Keeper.GetOrder`. -/
def GetOrder (c : Ctx) (i : OrderID) : Option Order :=
  kfind (fun x : Order => x.id) i c.orders

/-- Source function `Keeper.GetBid`. -/
def GetBid (c : Ctx) (i : BidID) : Option Bid :=
  kfind (fun x : Bid => x.id) i c.bids

/-- Source function `Keeper.GetLease`. -/
def GetLease (c : Ctx) (i : LeaseID) : Option Lease :=
  kfind (fun x : Lease => x.id) i c.leases

/-- Source function `Keeper.updateOrder`: a `store.Set` at the order's key. -/
def updateOrder (c : Ctx) (o : Order) : Ctx :=
  ⟨insOrder o c.orders, c.bids, c.leases, c.events, c.blockHeight⟩

/-- Source function `Keeper.updateBid`. -/
def updateBid (c : Ctx) (b : Bid) : Ctx :=
  ⟨c.orders, insBid b c.bids, c.leases, c.events, c.blockHeight⟩

/-- Source function `Keeper.updateLease`. -/
def updateLease (c : Ctx) (x : Lease) : Ctx :=
  ⟨c.orders, c.bids, insLease x c.leases, c.events, c.blockHeight⟩

/-- Source call `ctx.EventManager().EmitEvent(e)`. -/
def emit (c : Ctx) (e : Event) : Ctx :=
  ⟨c.orders, c.bids, c.leases, c.events ++ [e], c.blockHeight⟩

/-- The visitor loop shared by the `With*` iterators: visit entries in list
order, threading state, stopping early when the visitor returns `true`. -/
def runVisitor {β σ : Type} (fn : β → σ → σ × Bool) : List β → σ → σ
  | [], s => s
  | x :: xs, s =>
    match fn x s with
    | (s2, true) => s2
    | (s2, false) => runVisitor fn xs s2

/-- Source function `Keeper.WithOrders`: ascending iteration over the order section of the
store as it is when the iterator is created. -/
def withOrders {σ : Type} (c : Ctx) (fn : Order → σ → σ × Bool) (s0 : σ) : σ :=
  runVisitor fn c.orders s0

/-- Source function `Keeper.WithBids`. -/
def withBids {σ : Type} (c : Ctx) (fn : Bid → σ → σ × Bool) (s0 : σ) : σ :=
  runVisitor fn c.bids s0

/-- Source function `Keeper.WithOrdersForGroup`: `WithOrders` filtered to one group. -/
def withOrdersForGroup {σ : Type} (c : Ctx) (gid : GroupID)
    (fn : Order → σ → σ × Bool) (s0 : σ) : σ :=
  withOrders c (fun o s => if o.id.gid = gid then fn o s else (s, false)) s0

/-- Source function `Keeper.WithBidsForOrder`: `WithBids` filtered to one order. -/
def withBidsForOrder {σ : Type} (c : Ctx) (oid : OrderID)
    (fn : Bid → σ → σ × Bool) (s0 : σ) : σ :=
  withBids c (fun b s => if b.id.oid = oid then fn b s else (s, false)) s0

/-- Modulus of the Go `uint32` in which `CreateOrder` accumulates `oseq`:
2^32. -/
def u32Mod : Nat := 4294967296

/-- Source function `Keeper.CreateOrder`: count the group's existing orders to
derive `oseq`, store the new order (`State` zero value = Open), emit
`EventOrderCreated`, and return the order.  The counter is a Go `uint32`
(`oseq := uint32(1)` incremented per visited order), so each increment wraps
modulo 2^32. -/
def CreateOrder (c : Ctx) (gid : GroupID) (spec : Nat) : Ctx × Order :=
  let oseq : Nat := withOrdersForGroup c gid (fun _ n => ((n + 1) % u32Mod, false)) 1
  let order : Order := ⟨⟨gid, oseq⟩, spec, .opened, c.blockHeight + orderTTL⟩
  (emit (updateOrder c order) (.orderCreated order.id), order)

/-- Source function `Keeper.CreateBid`: store the bid (`State` zero value = Open) and emit
`EventBidCreated`; there is no duplicate check before `store.Set`. -/
def CreateBid (c : Ctx) (oid : OrderID) (provider : Nat) (price : Nat) : Ctx :=
  let bid : Bid := ⟨⟨oid, provider⟩, price, .opened⟩
  emit (updateBid c bid) (.bidCreated bid.id)

/-- Source function `Keeper.CreateLease`: lease under the bid's ID with the bid's price. -/
def CreateLease (c : Ctx) (bid : Bid) : Ctx :=
  let lease : Lease := ⟨bid.id, bid.price, .active⟩
  emit (updateLease c lease) (.leaseCreated lease.id)

/-- Source function `Keeper.OnOrderMatched`: unconditional write of State = Matched. -/
def OnOrderMatched (c : Ctx) (o : Order) : Ctx :=
  updateOrder c (o.withState .matched)

/-- Source function `Keeper.OnBidMatched`: unconditional write of State = Matched. -/
def OnBidMatched (c : Ctx) (b : Bid) : Ctx :=
  updateBid c (b.withState .matched)

/-- Source function `Keeper.OnBidLost`: unconditional write of State = Lost. -/
def OnBidLost (c : Ctx) (b : Bid) : Ctx :=
  updateBid c (b.withState .lost)

/-- Source function `Keeper.OnBidClosed`: no-op when State is Closed or Lost, otherwise
write State = Closed and emit `EventBidClosed`. -/
def OnBidClosed (c : Ctx) (b : Bid) : Ctx :=
  match b.state with
  | .closed => c
  | .lost => c
  | _ => emit (updateBid c (b.withState .closed)) (.bidClosed b.id)

/-- Source function `Keeper.OnOrderClosed`: no-op when State is Closed, otherwise write
State = Closed and emit `EventOrderClosed`. -/
def OnOrderClosed (c : Ctx) (o : Order) : Ctx :=
  match o.state with
  | .closed => c
  | _ => emit (updateOrder c (o.withState .closed)) (.orderClosed o.id)

/-- Source function `Keeper.OnInsufficientFunds`: no-op when State is Closed or
InsufficientFunds, otherwise write State = InsufficientFunds and emit
`EventLeaseClosed` (the source reuses the closed event here). -/
def OnInsufficientFunds (c : Ctx) (x : Lease) : Ctx :=
  match x.state with
  | .closed => c
  | .insufficientFunds => c
  | _ => emit (updateLease c (x.withState .insufficientFunds)) (.leaseClosed x.id)

/-- Source function `Keeper.OnLeaseClosed`: no-op when State is Closed or InsufficientFunds,
otherwise write State = Closed and emit `EventLeaseClosed`. -/
def OnLeaseClosed (c : Ctx) (x : Lease) : Ctx :=
  match x.state with
  | .closed => c
  | .insufficientFunds => c
  | _ => emit (updateLease c (x.withState .closed)) (.leaseClosed x.id)

/-- The body of the inner visitor of `Keeper.OnGroupClosed`: close the bid,
then close the lease stored under the bid's ID if one exists. -/
def closeBidStep (c : Ctx) (b : Bid) : Ctx :=
  let c1 := OnBidClosed c b
  match GetLease c1 b.id with
  | some lease => OnLeaseClosed c1 lease
  | none => c1

/-- The body of the outer visitor of `Keeper.OnGroupClosed`: close the order,
then run the inner visitor over the bids of that order. -/
def closeOrderStep (c : Ctx) (o : Order) : Ctx :=
  let c2 := OnOrderClosed c o
  withBidsForOrder c2 o.id (fun bid cb => (closeBidStep cb bid, false)) c2

/-- Source function `Keeper.OnGroupClosed`: cascade over the group's orders. -/
def OnGroupClosed (c : Ctx) (gid : GroupID) : Ctx :=
  withOrdersForGroup c gid (fun order c1 => (closeOrderStep c1 order, false)) c

/-- Source function `Keeper.LeaseForOrder`: scan the order's bids in ascending key order and
stop at the first bid whose State is Matched, returning the lease stored
under that bid's ID (or nothing when no lease is stored there). -/
def LeaseForOrder (c : Ctx) (oid : OrderID) : Option Lease :=
  withBidsForOrder c oid (fun item s =>
    if item.id.oid ≠ oid then (s, false)
    else if item.state ≠ .matched then (s, false)
    else (GetLease c item.id, true)) none

/-! Trace semantics: the coordinator entry points as invoked by callers.
The state-marking entry points are invoked on an entity fetched from the
store (as the module's callers do); marking an absent entity is not an
operation a caller can perform through the query interface. -/

/-- One coordinator invocation. -/
inductive Op where
  | createOrder (gid : GroupID) (spec : Nat)
  | createBid (oid : OrderID) (provider : Nat) (price : Nat)
  | createLease (bid : BidID)
  | markOrderMatched (oid : OrderID)
  | markOrderClosed (oid : OrderID)
  | markBidMatched (bid : BidID)
  | markBidLost (bid : BidID)
  | markBidClosed (bid : BidID)
  | markInsufficientFunds (lid : LeaseID)
  | markLeaseClosed (lid : LeaseID)
  | closeGroup (gid : GroupID)
deriving DecidableEq

/-- Apply one coordinator invocation to the state. -/
def step (c : Ctx) : Op → Ctx
  | .createOrder gid spec => (CreateOrder c gid spec).1
  | .createBid oid provider price => CreateBid c oid provider price
  | .createLease bid =>
    match GetBid c bid with
    | some b => CreateLease c b
    | none => c
  | .markOrderMatched oid =>
    match GetOrder c oid with
    | some o => OnOrderMatched c o
    | none => c
  | .markOrderClosed oid =>
    match GetOrder c oid with
    | some o => OnOrderClosed c o
    | none => c
  | .markBidMatched bid =>
    match GetBid c bid with
    | some b => OnBidMatched c b
    | none => c
  | .markBidLost bid =>
    match GetBid c bid with
    | some b => OnBidLost c b
    | none => c
  | .markBidClosed bid =>
    match GetBid c bid with
    | some b => OnBidClosed c b
    | none => c
  | .markInsufficientFunds lid =>
    match GetLease c lid with
    | some x => OnInsufficientFunds c x
    | none => c
  | .markLeaseClosed lid =>
    match GetLease c lid with
    | some x => OnLeaseClosed c x
    | none => c
  | .closeGroup gid => OnGroupClosed c gid

/-- The empty genesis state at height 0. -/
def emptyCtx : Ctx := ⟨[], [], [], [], 0⟩

/-- Run a trace of coordinator invocations from the genesis state. -/
def exec (t : List Op) : Ctx :=
  t.foldl step emptyCtx

/-- Number of `CreateOrder` invocations for group `G` in a trace: the count
of all orders ever created for `G`, open or closed. -/
def createdCount (t : List Op) (G : GroupID) : Nat :=
  t.countP (fun op =>
    match op with
    | .createOrder g _ => decide (g = G)
    | _ => false)

/-- Number of orders currently stored for group `G`. -/
def countOrdersG (c : Ctx) (G : GroupID) : Nat :=
  c.orders.countP (fun o => decide (o.id.gid = G))

/-- Well-formedness of the store: each of the three sections is strictly
ascending in key order (as the byte-sorted KV store guarantees). -/
def WF (c : Ctx) : Prop :=
  SortedKeys (fun x : Order => x.id) cmpOrderID c.orders ∧
  SortedKeys (fun x : Bid => x.id) cmpBidID c.bids ∧
  SortedKeys (fun x : Lease => x.id) cmpBidID c.leases

instance (c : Ctx) : Decidable (WF c) := by
  unfold WF SortedKeys
  infer_instance

/-! Reduction of the visitor loops to folds and searches. -/

theorem runVisitor_eq_foldl {β σ : Type} (g : β → σ → σ) (fn : β → σ → σ × Bool)
    (h : ∀ a s, fn a s = (g a s, false)) :
    ∀ (l : List β) (s0 : σ), runVisitor fn l s0 = l.foldl (fun s a => g a s) s0 := by
  intro l
  induction l with
  | nil => intro s0; rfl
  | cons x xs ih =>
    intro s0
    simp only [runVisitor, h, List.foldl_cons]
    exact ih _

theorem foldl_if_filter {β σ : Type} (p : β → Bool) (g : β → σ → σ) :
    ∀ (l : List β) (s0 : σ),
      l.foldl (fun s a => if p a then g a s else s) s0 =
        (l.filter p).foldl (fun s a => g a s) s0 := by
  intro l
  induction l with
  | nil => intro s0; rfl
  | cons x xs ih =>
    intro s0
    by_cases hp : p x <;> simp [List.foldl_cons, List.filter_cons, hp, ih]

theorem foldl_count {β : Type} :
    ∀ (l : List β) (n : Nat), l.foldl (fun m (_ : β) => m + 1) n = n + l.length := by
  intro l
  induction l with
  | nil => intro n; rfl
  | cons x xs ih => intro n; simp [List.foldl_cons, ih]; omega

theorem foldl_count_mod {β : Type} :
    ∀ (l : List β) (n : Nat), n < u32Mod →
      l.foldl (fun m (_ : β) => (m + 1) % u32Mod) n = (n + l.length) % u32Mod := by
  intro l
  induction l with
  | nil =>
    intro n hn
    simp [Nat.mod_eq_of_lt hn]
  | cons x xs ih =>
    intro n hn
    rw [List.foldl_cons, ih ((n + 1) % u32Mod) (Nat.mod_lt _ (by decide)),
      Nat.mod_add_mod, List.length_cons]
    congr 1
    omega

theorem runVisitor_find {β σ : Type} (p : β → Bool) (g : β → σ)
    (fn : β → σ → σ × Bool)
    (h : ∀ a s, fn a s = if p a then (g a, true) else (s, false)) :
    ∀ (l : List β) (s0 : σ),
      runVisitor fn l s0 =
        (match l.find? p with
         | some a => g a
         | none => s0) := by
  intro l
  induction l with
  | nil => intro s0; rfl
  | cons x xs ih =>
    intro s0
    by_cases hp : p x
    · simp only [runVisitor, h, if_pos hp, List.find?_cons_of_pos _ hp]
    · simp only [runVisitor, h, if_neg hp, List.find?_cons_of_neg _ hp]
      exact ih _

/-- The group-filtered order visitor, with a never-stopping body, is a fold
over the group's orders in ascending key order. -/
theorem withOrdersForGroup_foldl {σ : Type} (c : Ctx) (gid : GroupID)
    (g : Order → σ → σ) (s0 : σ) :
    withOrdersForGroup c gid (fun o s => (g o s, false)) s0 =
      (c.orders.filter (fun o => decide (o.id.gid = gid))).foldl (fun s o => g o s) s0 := by
  unfold withOrdersForGroup withOrders
  rw [runVisitor_eq_foldl (fun o s => if decide (o.id.gid = gid) then g o s else s)]
  · exact foldl_if_filter _ _ _ _
  · intro a s
    by_cases h : a.id.gid = gid <;> simp [h]

/-- The order-filtered bid visitor, with a never-stopping body, is a fold
over the order's bids in ascending key order. -/
theorem withBidsForOrder_foldl {σ : Type} (c : Ctx) (oid : OrderID)
    (g : Bid → σ → σ) (s0 : σ) :
    withBidsForOrder c oid (fun b s => (g b s, false)) s0 =
      (c.bids.filter (fun b => decide (b.id.oid = oid))).foldl (fun s b => g b s) s0 := by
  unfold withBidsForOrder withBids
  rw [runVisitor_eq_foldl (fun b s => if decide (b.id.oid = oid) then g b s else s)]
  · exact foldl_if_filter _ _ _ _
  · intro a s
    by_cases h : a.id.oid = oid <;> simp [h]

theorem createOrder_count (c : Ctx) (gid : GroupID) :
    withOrdersForGroup c gid (fun _ n => ((n + 1) % u32Mod, false)) 1 =
      (countOrdersG c gid + 1) % u32Mod := by
  rw [withOrdersForGroup_foldl c gid (fun _ n => (n + 1) % u32Mod) 1,
    foldl_count_mod _ 1 (by decide)]
  unfold countOrdersG
  rw [List.countP_eq_length_filter]
  congr 1
  omega

/-- The `oseq` computed by `CreateOrder` is one more than the number of
orders currently stored for the group, wrapped into the Go `uint32`. -/
theorem createOrder_oseq_eq (c : Ctx) (gid : GroupID) (spec : Nat) :
    (CreateOrder c gid spec).2.id.oseq = (countOrdersG c gid + 1) % u32Mod := by
  show withOrdersForGroup c gid (fun _ n => ((n + 1) % u32Mod, false)) 1 = _
  exact createOrder_count c gid

/-! Pointwise effect of the state-marking functions on the store. -/

/-- Terminal-state behaviour of `OnBidClosed` on the stored value: a Lost bid
stays Lost, anything else becomes Closed. -/
def bidTerm : BidState → BidState
  | .lost => .lost
  | _ => .closed

/-- Terminal-state behaviour of `OnLeaseClosed` on the stored value: an
InsufficientFunds lease stays InsufficientFunds, anything else becomes
Closed. -/
def leaseTerm : LeaseState → LeaseState
  | .insufficientFunds => .insufficientFunds
  | _ => .closed

theorem orderWithState_id (o : Order) (s : OrderState) : (o.withState s).id = o.id := rfl

theorem bidWithState_id (b : Bid) (s : BidState) : (b.withState s).id = b.id := rfl

theorem leaseWithState_id (x : Lease) (s : LeaseState) : (x.withState s).id = x.id := rfl

theorem orderWithState_self (o : Order) : o.withState o.state = o := rfl

theorem bidWithState_self (b : Bid) : b.withState b.state = b := rfl

theorem leaseWithState_self (x : Lease) : x.withState x.state = x := rfl

theorem getOrder_updateOrder_self (c : Ctx) (o : Order) :
    GetOrder (updateOrder c o) o.id = some o :=
  kfind_sinsert_self cmpOrderID_eq_iff cmpOrderID_gt_iff o c.orders

theorem getOrder_updateOrder_ne (c : Ctx) (o : Order) {i : OrderID} (h : i ≠ o.id) :
    GetOrder (updateOrder c o) i = GetOrder c i :=
  kfind_sinsert_ne cmpOrderID_eq_iff h c.orders

theorem getBid_updateBid_self (c : Ctx) (b : Bid) :
    GetBid (updateBid c b) b.id = some b :=
  kfind_sinsert_self cmpBidID_eq_iff cmpBidID_gt_iff b c.bids

theorem getBid_updateBid_ne (c : Ctx) (b : Bid) {i : BidID} (h : i ≠ b.id) :
    GetBid (updateBid c b) i = GetBid c i :=
  kfind_sinsert_ne cmpBidID_eq_iff h c.bids

theorem getLease_updateLease_self (c : Ctx) (x : Lease) :
    GetLease (updateLease c x) x.id = some x :=
  kfind_sinsert_self cmpBidID_eq_iff cmpBidID_gt_iff x c.leases

theorem getLease_updateLease_ne (c : Ctx) (x : Lease) {i : LeaseID} (h : i ≠ x.id) :
    GetLease (updateLease c x) i = GetLease c i :=
  kfind_sinsert_ne cmpBidID_eq_iff h c.leases

theorem onOrderClosed_bids (c : Ctx) (o : Order) : (OnOrderClosed c o).bids = c.bids := by
  unfold OnOrderClosed
  cases o.state <;> rfl

theorem onOrderClosed_leases (c : Ctx) (o : Order) : (OnOrderClosed c o).leases = c.leases := by
  unfold OnOrderClosed
  cases o.state <;> rfl

theorem onOrderClosed_height (c : Ctx) (o : Order) :
    (OnOrderClosed c o).blockHeight = c.blockHeight := by
  unfold OnOrderClosed
  cases o.state <;> rfl

theorem onBidClosed_orders (c : Ctx) (b : Bid) : (OnBidClosed c b).orders = c.orders := by
  unfold OnBidClosed
  cases b.state <;> rfl

theorem onBidClosed_leases (c : Ctx) (b : Bid) : (OnBidClosed c b).leases = c.leases := by
  unfold OnBidClosed
  cases b.state <;> rfl

theorem onBidClosed_height (c : Ctx) (b : Bid) :
    (OnBidClosed c b).blockHeight = c.blockHeight := by
  unfold OnBidClosed
  cases b.state <;> rfl

theorem onLeaseClosed_orders (c : Ctx) (x : Lease) : (OnLeaseClosed c x).orders = c.orders := by
  unfold OnLeaseClosed
  cases x.state <;> rfl

theorem onLeaseClosed_bids (c : Ctx) (x : Lease) : (OnLeaseClosed c x).bids = c.bids := by
  unfold OnLeaseClosed
  cases x.state <;> rfl

theorem onLeaseClosed_height (c : Ctx) (x : Lease) :
    (OnLeaseClosed c x).blockHeight = c.blockHeight := by
  unfold OnLeaseClosed
  cases x.state <;> rfl

/-- When the closed order is the stored one, closing it rewrites the order
section pointwise. -/
theorem onOrderClosed_orders_map (c : Ctx) (o : Order)
    (hs : SortedKeys (fun x : Order => x.id) cmpOrderID c.orders) (hm : o ∈ c.orders) :
    (OnOrderClosed c o).orders =
      c.orders.map (fun y => if y.id = o.id then y.withState .closed else y) := by
  have hrepl : insOrder (o.withState .closed) c.orders =
      c.orders.map (fun y => if y.id = o.id then o.withState .closed else y) := by
    unfold insOrder
    exact sinsert_replace cmpOrderID_eq_iff cmpOrderID_gt_iff cmpOrderID_lt_trans hs hm rfl
  have hcongr : c.orders.map (fun y => if y.id = o.id then o.withState .closed else y) =
      c.orders.map (fun y => if y.id = o.id then y.withState .closed else y) := by
    refine List.map_congr_left (fun y hy => ?_)
    by_cases h : y.id = o.id
    · have : y = o := sortedKeys_unique cmpOrderID_eq_iff hs hy hm h
      simp [h, this]
    · simp [h]
  have hwrite : (emit (updateOrder c (o.withState .closed)) (.orderClosed o.id)).orders =
      c.orders.map (fun y => if y.id = o.id then y.withState .closed else y) := by
    show insOrder (o.withState .closed) c.orders = _
    rw [hrepl, hcongr]
  unfold OnOrderClosed
  rcases ho : o.state
  · exact hwrite
  · exact hwrite
  · show c.orders = _
    refine ((List.map_congr_left (fun y hy => ?_)).trans (List.map_id c.orders)).symm
    show (if y.id = o.id then y.withState .closed else y) = id y
    by_cases h : y.id = o.id
    · have hyo : y = o := sortedKeys_unique cmpOrderID_eq_iff hs hy hm h
      have h2 : y.withState .closed = y := by
        subst hyo
        rw [← ho]
        exact orderWithState_self y
      simp [h, h2]
    · simp [h]

/-- When the closed bid is the stored one, closing it rewrites the bid
section pointwise (Lost stays Lost, anything else becomes Closed). -/
theorem onBidClosed_bids_map (c : Ctx) (b : Bid)
    (hs : SortedKeys (fun x : Bid => x.id) cmpBidID c.bids) (hm : b ∈ c.bids) :
    (OnBidClosed c b).bids =
      c.bids.map (fun y => if y.id = b.id then y.withState (bidTerm y.state) else y) := by
  have hid : ∀ y ∈ c.bids, y.id = b.id → y = b :=
    fun y hy h => sortedKeys_unique cmpBidID_eq_iff hs hy hm h
  have hrepl : insBid (b.withState .closed) c.bids =
      c.bids.map (fun y => if y.id = b.id then b.withState .closed else y) :=
    sinsert_replace cmpBidID_eq_iff cmpBidID_gt_iff cmpBidID_lt_trans hs hm rfl
  have hnoop : b.withState (bidTerm b.state) = b →
      c.bids = c.bids.map (fun y => if y.id = b.id then y.withState (bidTerm y.state) else y) := by
    intro hb
    refine ((List.map_congr_left fun y hy => ?_).trans (List.map_id c.bids)).symm
    show (if y.id = b.id then y.withState (bidTerm y.state) else y) = id y
    by_cases h : y.id = b.id
    · have hyb := hid y hy h
      rw [if_pos h, hyb, hb]
      rfl
    · rw [if_neg h]
      rfl
  have hwrit : b.withState .closed = b.withState (bidTerm b.state) →
      (emit (updateBid c (b.withState .closed)) (.bidClosed b.id)).bids =
        c.bids.map (fun y => if y.id = b.id then y.withState (bidTerm y.state) else y) := by
    intro hb
    show insBid (b.withState .closed) c.bids = _
    rw [hrepl]
    refine List.map_congr_left fun y hy => ?_
    by_cases h : y.id = b.id
    · have hyb := hid y hy h
      rw [if_pos h, if_pos h, hb, hyb]
    · rw [if_neg h, if_neg h]
  unfold OnBidClosed
  rcases hb : b.state
  · exact hwrit (by rw [hb]; rfl)
  · exact hwrit (by rw [hb]; rfl)
  · refine hnoop ?_
    rw [hb]
    show b.withState .lost = b
    rw [← hb]
    exact bidWithState_self b
  · refine hnoop ?_
    rw [hb]
    show b.withState .closed = b
    rw [← hb]
    exact bidWithState_self b

/-- When the closed lease is the stored one, closing it rewrites the lease
section pointwise (InsufficientFunds stays InsufficientFunds, anything else
becomes Closed). -/
theorem onLeaseClosed_leases_map (c : Ctx) (x : Lease)
    (hs : SortedKeys (fun y : Lease => y.id) cmpBidID c.leases) (hm : x ∈ c.leases) :
    (OnLeaseClosed c x).leases =
      c.leases.map (fun y => if y.id = x.id then y.withState (leaseTerm y.state) else y) := by
  have hid : ∀ y ∈ c.leases, y.id = x.id → y = x :=
    fun y hy h => sortedKeys_unique cmpBidID_eq_iff hs hy hm h
  have hrepl : insLease (x.withState .closed) c.leases =
      c.leases.map (fun y => if y.id = x.id then x.withState .closed else y) :=
    sinsert_replace cmpBidID_eq_iff cmpBidID_gt_iff cmpBidID_lt_trans hs hm rfl
  have hnoop : x.withState (leaseTerm x.state) = x →
      c.leases = c.leases.map (fun y => if y.id = x.id then y.withState (leaseTerm y.state) else y) := by
    intro hx
    refine ((List.map_congr_left fun y hy => ?_).trans (List.map_id c.leases)).symm
    show (if y.id = x.id then y.withState (leaseTerm y.state) else y) = id y
    by_cases h : y.id = x.id
    · have hyx := hid y hy h
      rw [if_pos h, hyx, hx]
      rfl
    · rw [if_neg h]
      rfl
  have hwrit : x.withState .closed = x.withState (leaseTerm x.state) →
      (emit (updateLease c (x.withState .closed)) (.leaseClosed x.id)).leases =
        c.leases.map (fun y => if y.id = x.id then y.withState (leaseTerm y.state) else y) := by
    intro hx
    show insLease (x.withState .closed) c.leases = _
    rw [hrepl]
    refine List.map_congr_left fun y hy => ?_
    by_cases h : y.id = x.id
    · have hyx := hid y hy h
      rw [if_pos h, if_pos h, hx, hyx]
    · rw [if_neg h, if_neg h]
  unfold OnLeaseClosed
  rcases hx : x.state
  · exact hwrit (by rw [hx]; rfl)
  · refine hnoop ?_
    rw [hx]
    show x.withState .insufficientFunds = x
    rw [← hx]
    exact leaseWithState_self x
  · refine hnoop ?_
    rw [hx]
    show x.withState .closed = x
    rw [← hx]
    exact leaseWithState_self x

/-! The cascade of `OnGroupClosed`, reduced to pointwise store rewrites. -/

/-- Keys of a list of bids. -/
def bidIds (M : List Bid) : List BidID := M.map (fun b => b.id)

theorem closeBidStep_eq (c : Ctx) (b : Bid) :
    closeBidStep c b =
      (match GetLease (OnBidClosed c b) b.id with
       | some lease => OnLeaseClosed (OnBidClosed c b) lease
       | none => OnBidClosed c b) := rfl

theorem closeBidStep_orders (c : Ctx) (b : Bid) :
    (closeBidStep c b).orders = c.orders := by
  rw [closeBidStep_eq]
  rcases h : GetLease (OnBidClosed c b) b.id with _ | l
  · exact onBidClosed_orders c b
  · rw [onLeaseClosed_orders, onBidClosed_orders]

theorem closeBidStep_height (c : Ctx) (b : Bid) :
    (closeBidStep c b).blockHeight = c.blockHeight := by
  rw [closeBidStep_eq]
  rcases h : GetLease (OnBidClosed c b) b.id with _ | l
  · exact onBidClosed_height c b
  · rw [onLeaseClosed_height, onBidClosed_height]

theorem closeBidStep_bids_map (c : Ctx) (b : Bid)
    (hs : SortedKeys (fun x : Bid => x.id) cmpBidID c.bids) (hm : b ∈ c.bids) :
    (closeBidStep c b).bids =
      c.bids.map (fun y => if y.id = b.id then y.withState (bidTerm y.state) else y) := by
  rw [closeBidStep_eq]
  rcases h : GetLease (OnBidClosed c b) b.id with _ | l
  · exact onBidClosed_bids_map c b hs hm
  · rw [onLeaseClosed_bids, onBidClosed_bids_map c b hs hm]

theorem closeBidStep_leases_map (c : Ctx) (b : Bid)
    (hsl : SortedKeys (fun y : Lease => y.id) cmpBidID c.leases) :
    (closeBidStep c b).leases =
      c.leases.map (fun y => if y.id = b.id then y.withState (leaseTerm y.state) else y) := by
  rw [closeBidStep_eq]
  have hlb : (OnBidClosed c b).leases = c.leases := onBidClosed_leases c b
  rcases h : GetLease (OnBidClosed c b) b.id with _ | l
  · rw [hlb]
    rw [GetLease, hlb] at h
    have hnone := kfind_none_iff.mp h
    refine ((List.map_congr_left fun y hy => ?_).trans (List.map_id c.leases)).symm
    show (if y.id = b.id then y.withState (leaseTerm y.state) else y) = id y
    rw [if_neg (hnone y hy)]
    rfl
  · rw [GetLease, hlb] at h
    obtain ⟨hlm, hlid⟩ := kfind_eq_some h
    have hmap := onLeaseClosed_leases_map (OnBidClosed c b) l (by rw [hlb]; exact hsl)
      (by rw [hlb]; exact hlm)
    rw [hmap, hlb]
    exact List.map_congr_left fun y hy => by rw [hlid]

/-- Folding the bid-closing step over a snapshot of stored bids with
pairwise distinct keys rewrites the bid and lease sections pointwise and
leaves the order section unchanged. -/
theorem foldBids_map :
    ∀ (M : List Bid) (c : Ctx),
      SortedKeys (fun x : Bid => x.id) cmpBidID c.bids →
      SortedKeys (fun y : Lease => y.id) cmpBidID c.leases →
      (∀ b ∈ M, b ∈ c.bids) →
      M.Pairwise (fun b1 b2 => b1.id ≠ b2.id) →
      (M.foldl closeBidStep c).orders = c.orders ∧
      (M.foldl closeBidStep c).blockHeight = c.blockHeight ∧
      (M.foldl closeBidStep c).bids =
        c.bids.map (fun y => if y.id ∈ bidIds M then y.withState (bidTerm y.state) else y) ∧
      (M.foldl closeBidStep c).leases =
        c.leases.map (fun y => if y.id ∈ bidIds M then y.withState (leaseTerm y.state) else y) := by
  intro M
  induction M with
  | nil =>
    intro c _ _ _ _
    refine ⟨rfl, rfl, ?_, ?_⟩ <;>
      exact ((List.map_congr_left fun y hy => by
        simp [bidIds]).trans (List.map_id _)).symm
  | cons b M2 ih =>
    intro c hsb hsl hmem hpw
    rcases hpw with _ | ⟨hbne, hpw2⟩
    have hbm : b ∈ c.bids := hmem b (by simp)
    set c1 := closeBidStep c b with hc1
    have hb_bids : c1.bids =
        c.bids.map (fun y => if y.id = b.id then y.withState (bidTerm y.state) else y) :=
      closeBidStep_bids_map c b hsb hbm
    have hb_leases : c1.leases =
        c.leases.map (fun y => if y.id = b.id then y.withState (leaseTerm y.state) else y) :=
      closeBidStep_leases_map c b hsl
    have hsb1 : SortedKeys (fun x : Bid => x.id) cmpBidID c1.bids := by
      rw [hb_bids]
      refine sortedKeys_map (fun y => ?_) hsb
      by_cases h : y.id = b.id <;> simp [h, bidWithState_id]
    have hsl1 : SortedKeys (fun y : Lease => y.id) cmpBidID c1.leases := by
      rw [hb_leases]
      refine sortedKeys_map (fun y => ?_) hsl
      by_cases h : y.id = b.id <;> simp [h, leaseWithState_id]
    have hmem2 : ∀ b2 ∈ M2, b2 ∈ c1.bids := by
      intro b2 hb2
      have h1 : b2 ∈ c.bids := hmem b2 (by simp [hb2])
      have hne : b2.id ≠ b.id := fun h => hbne b2 hb2 (h ▸ rfl)
      rw [hb_bids]
      have h2 := List.mem_map_of_mem
        (fun y => if y.id = b.id then y.withState (bidTerm y.state) else y) h1
      simpa [hne] using h2
    obtain ⟨iho, ihh, ihb, ihl⟩ := ih c1 hsb1 hsl1 hmem2 hpw2
    have hbnotin : b.id ∉ bidIds M2 := by
      intro h
      obtain ⟨b2, hb2, hb2id⟩ := List.mem_map.mp h
      exact hbne b2 hb2 hb2id.symm
    refine ⟨?_, ?_, ?_, ?_⟩
    · show (M2.foldl closeBidStep c1).orders = c.orders
      rw [iho, hc1, closeBidStep_orders]
    · show (M2.foldl closeBidStep c1).blockHeight = c.blockHeight
      rw [ihh, hc1, closeBidStep_height]
    · show (M2.foldl closeBidStep c1).bids = _
      rw [ihb, hb_bids, List.map_map]
      refine List.map_congr_left fun y hy => ?_
      simp only [Function.comp_apply]
      by_cases h : y.id = b.id
      · rw [if_pos h]
        rw [if_neg (by rw [bidWithState_id, h]; exact hbnotin)]
        have hin : y.id ∈ bidIds (b :: M2) := by
          show y.id ∈ (b :: M2).map (fun b => b.id)
          rw [List.map_cons]
          exact List.mem_cons.mpr (Or.inl h)
        rw [if_pos hin]
      · rw [if_neg h]
        have hiff : (y.id ∈ bidIds (b :: M2)) ↔ (y.id ∈ bidIds M2) := by
          simp only [bidIds, List.map_cons, List.mem_cons]
          exact ⟨fun hor => hor.resolve_left h, Or.inr⟩
        by_cases h2 : y.id ∈ bidIds M2
        · rw [if_pos h2, if_pos (hiff.mpr h2)]
        · rw [if_neg h2, if_neg (fun hx => h2 (hiff.mp hx))]
    · show (M2.foldl closeBidStep c1).leases = _
      rw [ihl, hb_leases, List.map_map]
      refine List.map_congr_left fun y hy => ?_
      simp only [Function.comp_apply]
      by_cases h : y.id = b.id
      · rw [if_pos h]
        rw [if_neg (by rw [leaseWithState_id, h]; exact hbnotin)]
        have hin : y.id ∈ bidIds (b :: M2) := by
          show y.id ∈ (b :: M2).map (fun b => b.id)
          rw [List.map_cons]
          exact List.mem_cons.mpr (Or.inl h)
        rw [if_pos hin]
      · rw [if_neg h]
        have hiff : (y.id ∈ bidIds (b :: M2)) ↔ (y.id ∈ bidIds M2) := by
          simp only [bidIds, List.map_cons, List.mem_cons]
          exact ⟨fun hor => hor.resolve_left h, Or.inr⟩
        by_cases h2 : y.id ∈ bidIds M2
        · rw [if_pos h2, if_pos (hiff.mpr h2)]
        · rw [if_neg h2, if_neg (fun hx => h2 (hiff.mp hx))]

/-- Keys of a list of orders. -/
def orderIds (L : List Order) : List OrderID := L.map (fun o => o.id)

/-- The orders of group `G` currently in the store, ascending. -/
def gOrders (c : Ctx) (G : GroupID) : List Order :=
  c.orders.filter (fun o => decide (o.id.gid = G))

/-- The IDs of the orders of group `G` currently in the store. -/
def gOrderIds (c : Ctx) (G : GroupID) : List OrderID := orderIds (gOrders c G)

theorem pairwise_ne_of_sorted_bids {l : List Bid}
    (hs : SortedKeys (fun x : Bid => x.id) cmpBidID l) :
    l.Pairwise (fun a b => a.id ≠ b.id) := by
  refine hs.imp (fun {a b} h heq => ?_)
  rw [(cmpBidID_eq_iff a.id b.id).mpr heq] at h
  exact absurd h (by simp)

theorem pairwise_ne_of_sorted_orders {l : List Order}
    (hs : SortedKeys (fun x : Order => x.id) cmpOrderID l) :
    l.Pairwise (fun a b => a.id ≠ b.id) := by
  refine hs.imp (fun {a b} h heq => ?_)
  rw [(cmpOrderID_eq_iff a.id b.id).mpr heq] at h
  exact absurd h (by simp)

theorem bidIds_map_pres {f : Bid → Bid} (hf : ∀ y, (f y).id = y.id) (l : List Bid) :
    bidIds (l.map f) = bidIds l := by
  unfold bidIds
  rw [List.map_map]
  exact List.map_congr_left fun y hy => hf y

theorem closeOrderStep_eq (c : Ctx) (o : Order) :
    closeOrderStep c o =
      withBidsForOrder (OnOrderClosed c o) o.id
        (fun bid cb => (closeBidStep cb bid, false)) (OnOrderClosed c o) := rfl

/-- Effect of one order-level cascade step on the whole store. -/
theorem closeOrderStep_spec (c : Ctx) (o : Order) (hwf : WF c) (hm : o ∈ c.orders) :
    (closeOrderStep c o).orders =
      c.orders.map (fun y => if y.id = o.id then y.withState .closed else y) ∧
    (closeOrderStep c o).blockHeight = c.blockHeight ∧
    (closeOrderStep c o).bids =
      c.bids.map (fun y => if y.id.oid = o.id then y.withState (bidTerm y.state) else y) ∧
    (closeOrderStep c o).leases =
      c.leases.map (fun y => if y.id.oid = o.id ∧ y.id ∈ bidIds c.bids
        then y.withState (leaseTerm y.state) else y) := by
  obtain ⟨hso, hsb, hsl⟩ := hwf
  have h2o : (OnOrderClosed c o).orders =
      c.orders.map (fun y => if y.id = o.id then y.withState .closed else y) :=
    onOrderClosed_orders_map c o hso hm
  have h2b : (OnOrderClosed c o).bids = c.bids := onOrderClosed_bids c o
  have h2l : (OnOrderClosed c o).leases = c.leases := onOrderClosed_leases c o
  have h2h : (OnOrderClosed c o).blockHeight = c.blockHeight := onOrderClosed_height c o
  rw [closeOrderStep_eq]
  rw [withBidsForOrder_foldl (OnOrderClosed c o) o.id (fun b s => closeBidStep s b)]
  have hMb : ((OnOrderClosed c o).bids.filter (fun b => decide (b.id.oid = o.id))) =
      c.bids.filter (fun b => decide (b.id.oid = o.id)) := by rw [h2b]
  rw [hMb]
  set M := c.bids.filter (fun b => decide (b.id.oid = o.id)) with hM
  have hmemM : ∀ b ∈ M, b ∈ (OnOrderClosed c o).bids := by
    intro b hb
    rw [h2b]
    exact (List.mem_filter.mp hb).1
  have hpwM : M.Pairwise (fun b1 b2 => b1.id ≠ b2.id) :=
    (pairwise_ne_of_sorted_bids hsb).filter _
  have hsb2 : SortedKeys (fun x : Bid => x.id) cmpBidID (OnOrderClosed c o).bids := by
    rw [h2b]; exact hsb
  have hsl2 : SortedKeys (fun y : Lease => y.id) cmpBidID (OnOrderClosed c o).leases := by
    rw [h2l]; exact hsl
  obtain ⟨fo, fh, fb, fl⟩ := foldBids_map M (OnOrderClosed c o) hsb2 hsl2 hmemM hpwM
  have hidM : ∀ (i : BidID), i ∈ bidIds M ↔ (i.oid = o.id ∧ i ∈ bidIds c.bids) := by
    intro i
    constructor
    · intro h
      obtain ⟨b, hb, hbid⟩ := List.mem_map.mp h
      obtain ⟨hbc, hbo⟩ := List.mem_filter.mp hb
      refine ⟨?_, ?_⟩
      · rw [← hbid]; exact of_decide_eq_true hbo
      · rw [← hbid]; exact List.mem_map_of_mem _ hbc
    · rintro ⟨ho, hin⟩
      obtain ⟨b, hb, hbid⟩ := List.mem_map.mp hin
      have hbM : b ∈ M := List.mem_filter.mpr ⟨hb, decide_eq_true (by rw [hbid]; exact ho)⟩
      rw [← hbid]
      exact List.mem_map_of_mem _ hbM
  refine ⟨?_, ?_, ?_, ?_⟩
  · rw [fo, h2o]
  · rw [fh, h2h]
  · rw [fb, h2b]
    refine List.map_congr_left fun y hy => ?_
    have hyin : y.id ∈ bidIds c.bids := List.mem_map_of_mem _ hy
    by_cases h : y.id.oid = o.id
    · rw [if_pos ((hidM y.id).mpr ⟨h, hyin⟩), if_pos h]
    · rw [if_neg (fun hx => h ((hidM y.id).mp hx).1), if_neg h]
  · rw [fl, h2l]
    refine List.map_congr_left fun y hy => ?_
    by_cases h : y.id.oid = o.id ∧ y.id ∈ bidIds c.bids
    · rw [if_pos ((hidM y.id).mpr h), if_pos h]
    · rw [if_neg (fun hx => h ((hidM y.id).mp hx)), if_neg h]

/-- Folding the order-level cascade step over a snapshot of stored orders
with pairwise distinct keys rewrites the whole store pointwise. -/
theorem foldOrders_map :
    ∀ (L : List Order) (c : Ctx), WF c →
      (∀ o ∈ L, o ∈ c.orders) →
      L.Pairwise (fun o1 o2 => o1.id ≠ o2.id) →
      (L.foldl closeOrderStep c).orders =
        c.orders.map (fun y => if y.id ∈ orderIds L then y.withState .closed else y) ∧
      (L.foldl closeOrderStep c).blockHeight = c.blockHeight ∧
      (L.foldl closeOrderStep c).bids =
        c.bids.map (fun y => if y.id.oid ∈ orderIds L
          then y.withState (bidTerm y.state) else y) ∧
      (L.foldl closeOrderStep c).leases =
        c.leases.map (fun y => if y.id.oid ∈ orderIds L ∧ y.id ∈ bidIds c.bids
          then y.withState (leaseTerm y.state) else y) := by
  intro L
  induction L with
  | nil =>
    intro c _ _ _
    refine ⟨?_, rfl, ?_, ?_⟩ <;>
      exact ((List.map_congr_left fun y hy => by
        simp [orderIds]).trans (List.map_id _)).symm
  | cons o L2 ih =>
    intro c hwf hmem hpw
    rcases hpw with _ | ⟨hone, hpw2⟩
    obtain ⟨hso, hsb, hsl⟩ := hwf
    have hom : o ∈ c.orders := hmem o (by simp)
    obtain ⟨so, sh, sb, sl⟩ := closeOrderStep_spec c o ⟨hso, hsb, hsl⟩ hom
    set c1 := closeOrderStep c o with hc1
    have hwf1 : WF c1 := by
      refine ⟨?_, ?_, ?_⟩
      · rw [so]
        refine sortedKeys_map (fun y => ?_) hso
        by_cases h : y.id = o.id <;> simp [h, orderWithState_id]
      · rw [sb]
        refine sortedKeys_map (fun y => ?_) hsb
        by_cases h : y.id.oid = o.id <;> simp [h, bidWithState_id]
      · rw [sl]
        refine sortedKeys_map (fun y => ?_) hsl
        by_cases h : y.id.oid = o.id ∧ y.id ∈ bidIds c.bids <;>
          simp [h, leaseWithState_id]
    have hmem2 : ∀ o2 ∈ L2, o2 ∈ c1.orders := by
      intro o2 ho2
      have h1 : o2 ∈ c.orders := hmem o2 (by simp [ho2])
      have hne : o2.id ≠ o.id := fun h => hone o2 ho2 (h ▸ rfl)
      rw [so]
      have h2 := List.mem_map_of_mem
        (fun y => if y.id = o.id then y.withState .closed else y) h1
      simpa [hne] using h2
    obtain ⟨iho, ihh, ihb, ihl⟩ := ih c1 hwf1 hmem2 hpw2
    have honotin : o.id ∉ orderIds L2 := by
      intro h
      obtain ⟨o2, ho2, ho2id⟩ := List.mem_map.mp h
      exact hone o2 ho2 ho2id.symm
    have hbidsEq : bidIds c1.bids = bidIds c.bids := by
      rw [sb]
      refine bidIds_map_pres (fun y => ?_) c.bids
      by_cases h : y.id.oid = o.id <;> simp [h, bidWithState_id]
    refine ⟨?_, ?_, ?_, ?_⟩
    · show (L2.foldl closeOrderStep c1).orders = _
      rw [iho, so, List.map_map]
      refine List.map_congr_left fun y hy => ?_
      simp only [Function.comp_apply]
      by_cases h : y.id = o.id
      · rw [if_pos h]
        rw [if_neg (by rw [orderWithState_id, h]; exact honotin)]
        have hin : y.id ∈ orderIds (o :: L2) := by
          show y.id ∈ (o :: L2).map (fun o => o.id)
          rw [List.map_cons]
          exact List.mem_cons.mpr (Or.inl h)
        rw [if_pos hin]
      · rw [if_neg h]
        have hiff : (y.id ∈ orderIds (o :: L2)) ↔ (y.id ∈ orderIds L2) := by
          simp only [orderIds, List.map_cons, List.mem_cons]
          exact ⟨fun hor => hor.resolve_left h, Or.inr⟩
        by_cases h2 : y.id ∈ orderIds L2
        · rw [if_pos h2, if_pos (hiff.mpr h2)]
        · rw [if_neg h2, if_neg (fun hx => h2 (hiff.mp hx))]
    · show (L2.foldl closeOrderStep c1).blockHeight = _
      rw [ihh, sh]
    · show (L2.foldl closeOrderStep c1).bids = _
      rw [ihb, sb, List.map_map]
      refine List.map_congr_left fun y hy => ?_
      simp only [Function.comp_apply]
      by_cases h : y.id.oid = o.id
      · rw [if_pos h]
        rw [if_neg (by rw [bidWithState_id, h]; exact honotin)]
        have hin : y.id.oid ∈ orderIds (o :: L2) := by
          show y.id.oid ∈ (o :: L2).map (fun o => o.id)
          rw [List.map_cons]
          exact List.mem_cons.mpr (Or.inl h)
        rw [if_pos hin]
      · rw [if_neg h]
        have hiff : (y.id.oid ∈ orderIds (o :: L2)) ↔ (y.id.oid ∈ orderIds L2) := by
          simp only [orderIds, List.map_cons, List.mem_cons]
          exact ⟨fun hor => hor.resolve_left h, Or.inr⟩
        by_cases h2 : y.id.oid ∈ orderIds L2
        · rw [if_pos h2, if_pos (hiff.mpr h2)]
        · rw [if_neg h2, if_neg (fun hx => h2 (hiff.mp hx))]
    · show (L2.foldl closeOrderStep c1).leases = _
      rw [ihl, hbidsEq, sl, List.map_map]
      refine List.map_congr_left fun y hy => ?_
      simp only [Function.comp_apply]
      by_cases h : y.id.oid = o.id ∧ y.id ∈ bidIds c.bids
      · rw [if_pos h]
        have hid2 : (y.withState (leaseTerm y.state)).id = y.id := leaseWithState_id y _
        rw [if_neg (by rw [hid2, h.1]; exact fun hx => honotin hx.1)]
        have hin : y.id.oid ∈ orderIds (o :: L2) := by
          show y.id.oid ∈ (o :: L2).map (fun o => o.id)
          rw [List.map_cons]
          exact List.mem_cons.mpr (Or.inl h.1)
        rw [if_pos ⟨hin, h.2⟩]
      · rw [if_neg h]
        have hiff : (y.id.oid ∈ orderIds (o :: L2) ∧ y.id ∈ bidIds c.bids) ↔
            (y.id.oid ∈ orderIds L2 ∧ y.id ∈ bidIds c.bids) := by
          simp only [orderIds, List.map_cons, List.mem_cons]
          constructor
          · rintro ⟨hor, hb⟩
            refine ⟨?_, hb⟩
            rcases hor with h1 | h1
            · exact absurd ⟨h1, hb⟩ h
            · exact h1
          · rintro ⟨h1, hb⟩
            exact ⟨Or.inr h1, hb⟩
        by_cases h2 : y.id.oid ∈ orderIds L2 ∧ y.id ∈ bidIds c.bids
        · rw [if_pos h2, if_pos (hiff.mpr h2)]
        · rw [if_neg h2, if_neg (fun hx => h2 (hiff.mp hx))]

theorem orderIds_map_pres {f : Order → Order} (hf : ∀ y, (f y).id = y.id) (l : List Order) :
    orderIds (l.map f) = orderIds l := by
  unfold orderIds
  rw [List.map_map]
  exact List.map_congr_left fun y hy => hf y

theorem onGroupClosed_eq (c : Ctx) (G : GroupID) :
    OnGroupClosed c G = (gOrders c G).foldl closeOrderStep c :=
  withOrdersForGroup_foldl c G (fun o s => closeOrderStep s o) c

theorem gOrders_sub (c : Ctx) (G : GroupID) : ∀ o ∈ gOrders c G, o ∈ c.orders :=
  fun o ho => (List.mem_filter.mp ho).1

theorem gOrders_pairwise (c : Ctx) (G : GroupID)
    (hs : SortedKeys (fun x : Order => x.id) cmpOrderID c.orders) :
    (gOrders c G).Pairwise (fun o1 o2 => o1.id ≠ o2.id) :=
  (pairwise_ne_of_sorted_orders hs).filter _

/-- Effect of `OnGroupClosed` on the order section: every order of the group becomes
Closed, every other order is untouched. -/
theorem onGroupClosed_orders_map (c : Ctx) (G : GroupID) (hwf : WF c) :
    (OnGroupClosed c G).orders =
      c.orders.map (fun y => if y.id.gid = G then y.withState .closed else y) := by
  rw [onGroupClosed_eq]
  obtain ⟨fo, _, _, _⟩ :=
    foldOrders_map (gOrders c G) c hwf (gOrders_sub c G) (gOrders_pairwise c G hwf.1)
  rw [fo]
  refine List.map_congr_left fun y hy => ?_
  by_cases h : y.id.gid = G
  · have hin : y.id ∈ orderIds (gOrders c G) :=
      List.mem_map_of_mem _ (List.mem_filter.mpr ⟨hy, decide_eq_true h⟩)
    rw [if_pos hin, if_pos h]
  · have hnin : y.id ∉ orderIds (gOrders c G) := by
      intro hx
      obtain ⟨o, ho, hoid⟩ := List.mem_map.mp hx
      have := of_decide_eq_true (List.mem_filter.mp ho).2
      rw [hoid] at this
      exact h this
    rw [if_neg hnin, if_neg h]

/-- Effect of `OnGroupClosed` on the bid section: every bid of an order of the group
becomes Closed unless it is Lost (which stays Lost); every other bid is
untouched. -/
theorem onGroupClosed_bids_map (c : Ctx) (G : GroupID) (hwf : WF c) :
    (OnGroupClosed c G).bids =
      c.bids.map (fun y => if y.id.oid ∈ gOrderIds c G
        then y.withState (bidTerm y.state) else y) := by
  rw [onGroupClosed_eq]
  obtain ⟨_, _, fb, _⟩ :=
    foldOrders_map (gOrders c G) c hwf (gOrders_sub c G) (gOrders_pairwise c G hwf.1)
  exact fb

/-- Effect of `OnGroupClosed` on the lease section: every lease stored under the ID of
a stored bid of an order of the group becomes Closed unless it is
InsufficientFunds (which stays InsufficientFunds); every other lease is
untouched. -/
theorem onGroupClosed_leases_map (c : Ctx) (G : GroupID) (hwf : WF c) :
    (OnGroupClosed c G).leases =
      c.leases.map (fun y => if y.id.oid ∈ gOrderIds c G ∧ y.id ∈ bidIds c.bids
        then y.withState (leaseTerm y.state) else y) := by
  rw [onGroupClosed_eq]
  obtain ⟨_, _, _, fl⟩ :=
    foldOrders_map (gOrders c G) c hwf (gOrders_sub c G) (gOrders_pairwise c G hwf.1)
  exact fl

theorem onGroupClosed_height (c : Ctx) (G : GroupID) (hwf : WF c) :
    (OnGroupClosed c G).blockHeight = c.blockHeight := by
  rw [onGroupClosed_eq]
  obtain ⟨_, fh, _, _⟩ :=
    foldOrders_map (gOrders c G) c hwf (gOrders_sub c G) (gOrders_pairwise c G hwf.1)
  exact fh

theorem onGroupClosed_wf (c : Ctx) (G : GroupID) (hwf : WF c) : WF (OnGroupClosed c G) := by
  obtain ⟨hso, hsb, hsl⟩ := hwf
  refine ⟨?_, ?_, ?_⟩
  · rw [onGroupClosed_orders_map c G ⟨hso, hsb, hsl⟩]
    refine sortedKeys_map (fun y => ?_) hso
    by_cases h : y.id.gid = G <;> simp [h, orderWithState_id]
  · rw [onGroupClosed_bids_map c G ⟨hso, hsb, hsl⟩]
    refine sortedKeys_map (fun y => ?_) hsb
    by_cases h : y.id.oid ∈ gOrderIds c G <;> simp [h, bidWithState_id]
  · rw [onGroupClosed_leases_map c G ⟨hso, hsb, hsl⟩]
    refine sortedKeys_map (fun y => ?_) hsl
    by_cases h : y.id.oid ∈ gOrderIds c G ∧ y.id ∈ bidIds c.bids <;>
      simp [h, leaseWithState_id]

/-! No-op behaviour on terminal states, and idempotence of the cascade. -/

theorem onOrderClosed_noop (c : Ctx) (o : Order) (h : o.state = .closed) :
    OnOrderClosed c o = c := by
  unfold OnOrderClosed
  rw [h]

theorem onBidClosed_noop (c : Ctx) (b : Bid)
    (h : b.state = .closed ∨ b.state = .lost) : OnBidClosed c b = c := by
  unfold OnBidClosed
  rcases h with h | h <;> rw [h]

theorem onLeaseClosed_noop (c : Ctx) (x : Lease)
    (h : x.state = .closed ∨ x.state = .insufficientFunds) : OnLeaseClosed c x = c := by
  unfold OnLeaseClosed
  rcases h with h | h <;> rw [h]

theorem onInsufficientFunds_noop (c : Ctx) (x : Lease)
    (h : x.state = .closed ∨ x.state = .insufficientFunds) : OnInsufficientFunds c x = c := by
  unfold OnInsufficientFunds
  rcases h with h | h <;> rw [h]

theorem closeBidStep_noop (c : Ctx) (b : Bid)
    (hb : b.state = .closed ∨ b.state = .lost)
    (hl : ∀ x ∈ c.leases, x.id = b.id → (x.state = .closed ∨ x.state = .insufficientFunds)) :
    closeBidStep c b = c := by
  rw [closeBidStep_eq, onBidClosed_noop c b hb]
  rcases h : GetLease c b.id with _ | x
  · rfl
  · obtain ⟨hm, hid⟩ := kfind_eq_some h
    exact onLeaseClosed_noop c x (hl x hm hid)

theorem foldl_noop {β : Type} (stp : Ctx → β → Ctx) :
    ∀ (M : List β) (c : Ctx), (∀ x ∈ M, stp c x = c) → M.foldl stp c = c := by
  intro M
  induction M with
  | nil => intro c _; rfl
  | cons x xs ih =>
    intro c h
    rw [List.foldl_cons, h x (by simp)]
    exact ih c (fun y hy => h y (by simp [hy]))

theorem closeOrderStep_noop (c : Ctx) (o : Order)
    (ho : o.state = .closed)
    (hb : ∀ b ∈ c.bids, b.id.oid = o.id → (b.state = .closed ∨ b.state = .lost))
    (hl : ∀ x ∈ c.leases, x.id.oid = o.id → x.id ∈ bidIds c.bids →
      (x.state = .closed ∨ x.state = .insufficientFunds)) :
    closeOrderStep c o = c := by
  rw [closeOrderStep_eq, onOrderClosed_noop c o ho]
  rw [withBidsForOrder_foldl c o.id (fun b s => closeBidStep s b)]
  refine foldl_noop _ _ _ (fun b hbM => ?_)
  obtain ⟨hbc, hbo⟩ := List.mem_filter.mp hbM
  have hoid := of_decide_eq_true hbo
  refine closeBidStep_noop c b (hb b hbc hoid) (fun x hxm hxid => ?_)
  refine hl x hxm (by rw [hxid]; exact hoid) ?_
  rw [hxid]
  exact List.mem_map_of_mem _ hbc

theorem gOrderIds_onGroupClosed (c : Ctx) (G : GroupID) (hwf : WF c) :
    gOrderIds (OnGroupClosed c G) G = gOrderIds c G := by
  unfold gOrderIds gOrders
  rw [onGroupClosed_orders_map c G hwf, List.filter_map]
  have hpf : ∀ y : Order,
      (fun o : Order => decide (o.id.gid = G))
        ((fun y => if y.id.gid = G then y.withState .closed else y) y) =
      decide (y.id.gid = G) := by
    intro y
    by_cases h : y.id.gid = G <;> simp [h, orderWithState_id]
  have hfc : (c.orders.filter ((fun o : Order => decide (o.id.gid = G)) ∘
      (fun y => if y.id.gid = G then y.withState .closed else y))) =
      c.orders.filter (fun o => decide (o.id.gid = G)) :=
    List.filter_congr (fun y _ => hpf y)
  rw [hfc]
  exact orderIds_map_pres (fun y => by
    by_cases h : y.id.gid = G <;> simp [h, orderWithState_id]) _

theorem bidIds_onGroupClosed (c : Ctx) (G : GroupID) (hwf : WF c) :
    bidIds (OnGroupClosed c G).bids = bidIds c.bids := by
  rw [onGroupClosed_bids_map c G hwf]
  exact bidIds_map_pres (fun y => by
    by_cases h : y.id.oid ∈ gOrderIds c G <;> simp [h, bidWithState_id]) _

/-- After the cascade, every order of the group is Closed. -/
theorem onGroupClosed_orders_terminal (c : Ctx) (G : GroupID) (hwf : WF c) :
    ∀ o ∈ (OnGroupClosed c G).orders, o.id.gid = G → o.state = .closed := by
  intro o ho hg
  rw [onGroupClosed_orders_map c G hwf] at ho
  obtain ⟨y, hy, hfy⟩ := List.mem_map.mp ho
  by_cases h : y.id.gid = G
  · rw [if_pos h] at hfy
    rw [← hfy]
    rfl
  · rw [if_neg h] at hfy
    rw [← hfy] at hg
    exact absurd hg h

/-- After the cascade, every bid of an order of the group is Closed or Lost. -/
theorem onGroupClosed_bids_terminal (c : Ctx) (G : GroupID) (hwf : WF c) :
    ∀ b ∈ (OnGroupClosed c G).bids, b.id.oid ∈ gOrderIds c G →
      b.state = .closed ∨ b.state = .lost := by
  intro b hb hg
  rw [onGroupClosed_bids_map c G hwf] at hb
  obtain ⟨y, hy, hfy⟩ := List.mem_map.mp hb
  by_cases h : y.id.oid ∈ gOrderIds c G
  · rw [if_pos h] at hfy
    rw [← hfy]
    rcases y.state <;> simp [Bid.withState, bidTerm]
  · rw [if_neg h] at hfy
    rw [← hfy] at hg
    exact absurd hg h

/-- After the cascade, every lease under a stored bid of an order of the
group is Closed or InsufficientFunds. -/
theorem onGroupClosed_leases_terminal (c : Ctx) (G : GroupID) (hwf : WF c) :
    ∀ x ∈ (OnGroupClosed c G).leases, x.id.oid ∈ gOrderIds c G →
      x.id ∈ bidIds c.bids → x.state = .closed ∨ x.state = .insufficientFunds := by
  intro x hx hg hbi
  rw [onGroupClosed_leases_map c G hwf] at hx
  obtain ⟨y, hy, hfy⟩ := List.mem_map.mp hx
  by_cases h : y.id.oid ∈ gOrderIds c G ∧ y.id ∈ bidIds c.bids
  · rw [if_pos h] at hfy
    rw [← hfy]
    rcases y.state <;> simp [Lease.withState, leaseTerm]
  · rw [if_neg h] at hfy
    rw [← hfy] at hg hbi
    exact absurd ⟨hg, hbi⟩ h

theorem getOrder_onGroupClosed (c : Ctx) (G : GroupID) (hwf : WF c)
    {o : Order} (ho : o ∈ c.orders) (hg : o.id.gid = G) :
    GetOrder (OnGroupClosed c G) o.id = some (o.withState .closed) := by
  unfold GetOrder
  rw [onGroupClosed_orders_map c G hwf]
  rw [kfind_map (fun y => if y.id.gid = G then y.withState .closed else y)
    (fun y => by by_cases h : y.id.gid = G <;> simp [h, orderWithState_id]) c.orders]
  have h1 : kfind (fun x : Order => x.id) o.id c.orders = some o :=
    kfind_mem cmpOrderID_eq_iff hwf.1 ho
  rw [h1]
  show some (if o.id.gid = G then o.withState .closed else o) = _
  rw [if_pos hg]

theorem getBid_onGroupClosed (c : Ctx) (G : GroupID) (hwf : WF c)
    {b : Bid} (hb : b ∈ c.bids) (hg : b.id.oid ∈ gOrderIds c G) :
    GetBid (OnGroupClosed c G) b.id = some (b.withState (bidTerm b.state)) := by
  unfold GetBid
  rw [onGroupClosed_bids_map c G hwf]
  rw [kfind_map (fun y => if y.id.oid ∈ gOrderIds c G then y.withState (bidTerm y.state) else y)
    (fun y => by by_cases h : y.id.oid ∈ gOrderIds c G <;> simp [h, bidWithState_id]) c.bids]
  have h1 : kfind (fun x : Bid => x.id) b.id c.bids = some b :=
    kfind_mem cmpBidID_eq_iff hwf.2.1 hb
  rw [h1]
  show some (if b.id.oid ∈ gOrderIds c G then b.withState (bidTerm b.state) else b) = _
  rw [if_pos hg]

theorem getLease_onGroupClosed (c : Ctx) (G : GroupID) (hwf : WF c)
    {x : Lease} (hx : x ∈ c.leases) (hg : x.id.oid ∈ gOrderIds c G)
    (hbi : x.id ∈ bidIds c.bids) :
    GetLease (OnGroupClosed c G) x.id = some (x.withState (leaseTerm x.state)) := by
  unfold GetLease
  rw [onGroupClosed_leases_map c G hwf]
  rw [kfind_map (fun y => if y.id.oid ∈ gOrderIds c G ∧ y.id ∈ bidIds c.bids
      then y.withState (leaseTerm y.state) else y)
    (fun y => by by_cases h : y.id.oid ∈ gOrderIds c G ∧ y.id ∈ bidIds c.bids <;>
      simp [h, leaseWithState_id]) c.leases]
  have h1 : kfind (fun y : Lease => y.id) x.id c.leases = some x :=
    kfind_mem cmpBidID_eq_iff hwf.2.2 hx
  rw [h1]
  show some (if x.id.oid ∈ gOrderIds c G ∧ x.id ∈ bidIds c.bids
    then x.withState (leaseTerm x.state) else x) = _
  rw [if_pos ⟨hg, hbi⟩]

/-- C2 (amended): `CloseGroup(G)` closes every stored order of `G`; closes
every stored bid of such an order unless that bid is Lost (a Lost bid stays
Lost); and closes every lease stored under such a bid's ID unless that lease
is already in a terminal state (an InsufficientFunds lease remains
InsufficientFunds).  `bidTerm`/`leaseTerm` express exactly those exceptions. -/
theorem closeGroup_cascade (c : Ctx) (G : GroupID) (hwf : WF c) :
    (∀ o ∈ c.orders, o.id.gid = G →
      GetOrder (OnGroupClosed c G) o.id = some (o.withState .closed)) ∧
    (∀ o ∈ c.orders, o.id.gid = G → ∀ b ∈ c.bids, b.id.oid = o.id →
      GetBid (OnGroupClosed c G) b.id = some (b.withState (bidTerm b.state))) ∧
    (∀ o ∈ c.orders, o.id.gid = G → ∀ b ∈ c.bids, b.id.oid = o.id →
      ∀ x ∈ c.leases, x.id = b.id →
        GetLease (OnGroupClosed c G) x.id = some (x.withState (leaseTerm x.state))) := by
  have hmemid : ∀ o ∈ c.orders, o.id.gid = G → o.id ∈ gOrderIds c G := by
    intro o ho hg
    exact List.mem_map_of_mem _ (List.mem_filter.mpr ⟨ho, decide_eq_true hg⟩)
  refine ⟨?_, ?_, ?_⟩
  · intro o ho hg
    exact getOrder_onGroupClosed c G hwf ho hg
  · intro o ho hg b hb hbo
    exact getBid_onGroupClosed c G hwf hb (by rw [hbo]; exact hmemid o ho hg)
  · intro o ho hg b hb hbo x hx hxb
    refine getLease_onGroupClosed c G hwf hx ?_ ?_
    · rw [hxb, hbo]; exact hmemid o ho hg
    · rw [hxb]; exact List.mem_map_of_mem _ hb

/-- C3: `CloseGroup` is idempotent — a second invocation immediately after a
first changes nothing: neither the persisted store sections nor the emitted
events (the whole context is unchanged). -/
theorem closeGroup_idempotent (c : Ctx) (G : GroupID) (hwf : WF c) :
    OnGroupClosed (OnGroupClosed c G) G = OnGroupClosed c G := by
  have hwfa : WF (OnGroupClosed c G) := onGroupClosed_wf c G hwf
  have hOI : gOrderIds (OnGroupClosed c G) G = gOrderIds c G :=
    gOrderIds_onGroupClosed c G hwf
  have hBI : bidIds (OnGroupClosed c G).bids = bidIds c.bids :=
    bidIds_onGroupClosed c G hwf
  rw [onGroupClosed_eq (OnGroupClosed c G) G]
  refine foldl_noop _ _ _ (fun o hoM => ?_)
  obtain ⟨hoc, hog⟩ := List.mem_filter.mp hoM
  have hgid := of_decide_eq_true hog
  have hoIn : o.id ∈ gOrderIds c G := by
    rw [← hOI]
    exact List.mem_map_of_mem _ hoM
  refine closeOrderStep_noop (OnGroupClosed c G) o
    (onGroupClosed_orders_terminal c G hwf o hoc hgid) ?_ ?_
  · intro b hbc hbo
    refine onGroupClosed_bids_terminal c G hwf b hbc ?_
    rw [hbo]
    exact hoIn
  · intro x hxc hxo hxin
    refine onGroupClosed_leases_terminal c G hwf x hxc ?_ ?_
    · rw [hxo]; exact hoIn
    · rw [← hBI]; exact hxin

/-! Concrete scenarios, built by running coordinator traces from genesis. -/

/-- Scenario 3 of the spec: one order in group (1,1,1), bid from provider 1
matched with a lease, bid from provider 2 lost. -/
def sc3G : GroupID := ⟨1, 1, 1⟩

def sc3O : OrderID := ⟨sc3G, 1⟩

def sc3 : Ctx := exec [ .createOrder sc3G 0, .createBid sc3O 1 100, .createBid sc3O 2 101,
  .markBidMatched ⟨sc3O, 1⟩, .markBidLost ⟨sc3O, 2⟩, .createLease ⟨sc3O, 1⟩ ]

/-- Witness for C2 at Scenario 3: after `CloseGroup`, the order is Closed,
the matched bid is Closed, its lease is Closed, and the lost bid remains
Lost. -/
theorem closeGroup_cascade_witness :
    GetOrder (OnGroupClosed sc3 sc3G) sc3O = some ⟨sc3O, 0, .closed, 5⟩ ∧
    GetBid (OnGroupClosed sc3 sc3G) ⟨sc3O, 1⟩ = some ⟨⟨sc3O, 1⟩, 100, .closed⟩ ∧
    GetLease (OnGroupClosed sc3 sc3G) ⟨sc3O, 1⟩ = some ⟨⟨sc3O, 1⟩, 100, .closed⟩ ∧
    GetBid (OnGroupClosed sc3 sc3G) ⟨sc3O, 2⟩ = some ⟨⟨sc3O, 2⟩, 101, .lost⟩ := by
  obtain ⟨h1, h2, h3⟩ := closeGroup_cascade sc3 sc3G (by decide)
  refine ⟨h1 ⟨sc3O, 0, .opened, 5⟩ (by decide) rfl, ?_, ?_, ?_⟩
  · exact h2 ⟨sc3O, 0, .opened, 5⟩ (by decide) rfl ⟨⟨sc3O, 1⟩, 100, .matched⟩ (by decide) rfl
  · exact h3 ⟨sc3O, 0, .opened, 5⟩ (by decide) rfl ⟨⟨sc3O, 1⟩, 100, .matched⟩ (by decide) rfl
      ⟨⟨sc3O, 1⟩, 100, .active⟩ (by decide) rfl
  · exact h2 ⟨sc3O, 0, .opened, 5⟩ (by decide) rfl ⟨⟨sc3O, 2⟩, 101, .lost⟩ (by decide) rfl

/-- A group whose matched bid has a lease already in InsufficientFunds when
the group is closed. -/
def c2cG : GroupID := ⟨2, 1, 1⟩

def c2cO : OrderID := ⟨c2cG, 1⟩

def c2cB : BidID := ⟨c2cO, 1⟩

def c2cex : Ctx := exec [ .createOrder c2cG 0, .createBid c2cO 1 100,
  .markBidMatched c2cB, .createLease c2cB, .markInsufficientFunds c2cB,
  .closeGroup c2cG ]

/-- Counterexample to C2 as stated: after `CloseGroup`, the bid is Closed but
the lease stored under that closed bid's ID is still InsufficientFunds, not
Closed — `CloseGroup` does not close a lease that is already in
InsufficientFunds. -/
theorem closeGroup_cascade_cex :
    GetBid c2cex c2cB = some ⟨c2cB, 100, .closed⟩ ∧
    GetLease c2cex c2cB = some ⟨c2cB, 100, .insufficientFunds⟩ ∧
    LeaseState.insufficientFunds ≠ LeaseState.closed := by decide

/-- Witness for C3 at Scenario 3. -/
theorem closeGroup_idempotent_witness :
    OnGroupClosed (OnGroupClosed sc3 sc3G) sc3G = OnGroupClosed sc3 sc3G :=
  closeGroup_idempotent sc3 sc3G (by decide)

/-! `LeaseForOrder`: characterization as a search for the first matched bid. -/

/-- The first stored bid of the order, in ascending key order, whose State is
Matched. -/
def firstMatchedBid (c : Ctx) (oid : OrderID) : Option Bid :=
  (c.bids.filter (fun b => decide (b.id.oid = oid))).find? (fun b => decide (b.state = .matched))

theorem find?_filter_comm {β : Type} (q r s : β → Bool) (hs : ∀ a, s a = (q a && r a)) :
    ∀ (l : List β), (l.filter q).find? r = l.find? s := by
  intro l
  induction l with
  | nil => rfl
  | cons x xs ih =>
    by_cases hq : q x
    · by_cases hr : r x
      · rw [List.filter_cons_of_pos hq, List.find?_cons_of_pos _ hr,
          List.find?_cons_of_pos _ (by rw [hs, hq, hr]; rfl)]
      · rw [List.filter_cons_of_pos hq, List.find?_cons_of_neg _ hr,
          List.find?_cons_of_neg _ (by simp [hs, hq, hr]), ih]
    · rw [List.filter_cons_of_neg hq,
        List.find?_cons_of_neg _ (by simp [hs, hq]), ih]

/-- The result of `LeaseForOrder` as a function of the first matched bid. -/
def leaseOfFirst (c : Ctx) : Option Bid → Option Lease
  | some b => GetLease c b.id
  | none => none

theorem leaseForOrder_eq_first (c : Ctx) (oid : OrderID) :
    LeaseForOrder c oid = leaseOfFirst c (firstMatchedBid c oid) := by
  unfold LeaseForOrder withBidsForOrder withBids
  rw [runVisitor_find (fun b => decide (b.id.oid = oid) && decide (b.state = .matched))
    (fun b => GetLease c b.id) _ ?_ c.bids none]
  · unfold firstMatchedBid
    rw [find?_filter_comm (fun b : Bid => decide (b.id.oid = oid))
      (fun b : Bid => decide (b.state = .matched))
      (fun b : Bid => decide (b.id.oid = oid) && decide (b.state = .matched)) (fun a => rfl)]
    rcases List.find?
        (fun b : Bid => decide (b.id.oid = oid) && decide (b.state = .matched)) c.bids
      with _ | b <;> rfl
  · intro a s
    by_cases h1 : a.id.oid = oid
    · by_cases h2 : a.state = .matched
      · simp [h1, h2]
      · simp [h1, h2]
    · simp [h1]

theorem countP_two_of_two_mem {β : Type} {p : β → Bool} :
    ∀ {l : List β} {x y : β}, x ∈ l → y ∈ l → p x → p y → x ≠ y → 2 ≤ l.countP p := by
  intro l
  induction l with
  | nil => intro x y hx; cases hx
  | cons z zs ih =>
    intro x y hx hy hpx hpy hne
    rcases List.mem_cons.mp hx with hx1 | hx1
    · rcases List.mem_cons.mp hy with hy1 | hy1
      · exact absurd (hx1.trans hy1.symm) hne
      · rw [List.countP_cons]
        have h1 : 0 < zs.countP p := List.countP_pos.mpr ⟨y, hy1, hpy⟩
        have h2 : p z = true := hx1 ▸ hpx
        rw [if_pos h2]
        omega
    · rcases List.mem_cons.mp hy with hy1 | hy1
      · rw [List.countP_cons]
        have h1 : 0 < zs.countP p := List.countP_pos.mpr ⟨x, hx1, hpx⟩
        have h2 : p z = true := hy1 ▸ hpy
        rw [if_pos h2]
        omega
      · rw [List.countP_cons]
        have := ih hx1 hy1 hpx hpy hne
        omega

/-- C4 (amended): `LeaseForOrder(O)` returns found=true iff some Bid for O is
Matched and a Lease is stored under the ID of the first Matched bid in
ascending key order, and in that case the returned Lease is that stored
Lease; in every other case it returns found=false.  In particular, when
exactly one Bid for O is Matched, the returned Lease is the one stored under
that bid's ID.  (The source keys on the first Matched bid, not on there being
exactly one Matched bid.) -/
theorem leaseForOrder_spec (c : Ctx) (oid : OrderID) (hwf : WF c) :
    (LeaseForOrder c oid = leaseOfFirst c (firstMatchedBid c oid)) ∧
    ((LeaseForOrder c oid).isSome ↔
      ∃ b, firstMatchedBid c oid = some b ∧ (GetLease c b.id).isSome) ∧
    (∀ b ∈ c.bids, b.id.oid = oid → b.state = .matched →
      c.bids.countP (fun x => decide (x.id.oid = oid) && decide (x.state = .matched)) = 1 →
      LeaseForOrder c oid = GetLease c b.id) := by
  refine ⟨leaseForOrder_eq_first c oid, ?_, ?_⟩
  · rw [leaseForOrder_eq_first]
    rcases hf : firstMatchedBid c oid with _ | b
    · simp [leaseOfFirst]
    · simp [leaseOfFirst]
  · intro b hb hbo hbs hcount
    rw [leaseForOrder_eq_first]
    have hbp : (fun x : Bid => decide (x.id.oid = oid) && decide (x.state = .matched)) b = true := by
      simp [hbo, hbs]
    have hbf : b ∈ c.bids.filter (fun x => decide (x.id.oid = oid)) :=
      List.mem_filter.mpr ⟨hb, decide_eq_true hbo⟩
    have hsome : (firstMatchedBid c oid).isSome := by
      unfold firstMatchedBid
      rw [List.find?_isSome]
      exact ⟨b, hbf, decide_eq_true hbs⟩
    obtain ⟨x, hx⟩ := Option.isSome_iff_exists.mp hsome
    have hx2 : (c.bids.filter (fun b => decide (b.id.oid = oid))).find?
        (fun b => decide (b.state = .matched)) = some x := hx
    have hxr := List.find?_some hx2
    have hxm : x ∈ c.bids.filter (fun b => decide (b.id.oid = oid)) :=
      List.mem_of_find?_eq_some hx2
    obtain ⟨hxc, hxq⟩ := List.mem_filter.mp hxm
    have hxp : (decide (x.id.oid = oid) && decide (x.state = .matched)) = true := by
      rw [Bool.and_eq_true]
      exact ⟨hxq, hxr⟩
    have hxb : x = b := by
      by_contra hne
      have h2 := @countP_two_of_two_mem Bid
        (fun y : Bid => decide (y.id.oid = oid) && decide (y.state = .matched))
        c.bids x b hxc hb hxp hbp hne
      omega
    rw [hx, hxb]
    rfl

/-- Two matched bids for the same order, with a lease stored under the key of
the first: the count of matched bids is 2, not 1, yet `LeaseForOrder`
reports found=true. -/
def c4G : GroupID := ⟨3, 1, 1⟩

def c4O : OrderID := ⟨c4G, 1⟩

def c4cex : Ctx := exec [ .createOrder c4G 0, .createBid c4O 1 100, .createBid c4O 2 100,
  .markBidMatched ⟨c4O, 1⟩, .markBidMatched ⟨c4O, 2⟩, .createLease ⟨c4O, 1⟩ ]

/-- Counterexample to C4 as stated: `LeaseForOrder` returns found=true even
though two bids (not exactly one) are Matched for the order. -/
theorem leaseForOrder_cex :
    c4cex.bids.countP (fun x => decide (x.id.oid = c4O) && decide (x.state = .matched)) = 2 ∧
    LeaseForOrder c4cex c4O = some ⟨⟨c4O, 1⟩, 100, .active⟩ := by decide

/-- Witness for C4 at Scenario 3 (exactly one matched bid, with a lease). -/
theorem leaseForOrder_spec_witness :
    LeaseForOrder sc3 sc3O = some ⟨⟨sc3O, 1⟩, 100, .active⟩ := by
  obtain ⟨h1, h2, h3⟩ := leaseForOrder_spec sc3 sc3O (by decide)
  have h4 := h3 ⟨⟨sc3O, 1⟩, 100, .matched⟩ (by decide) rfl rfl (by decide)
  rw [h4]
  decide

/-- C9: `LeaseForOrder` stops at the first Matched bid in ascending key
order: when no lease is stored under that bid's ID it returns found=false
without examining later bids. -/
theorem leaseForOrder_stops_at_first (c : Ctx) (oid : OrderID) (b : Bid) (hwf : WF c)
    (hfirst : firstMatchedBid c oid = some b) (hnol : GetLease c b.id = none) :
    LeaseForOrder c oid = none := by
  rw [leaseForOrder_eq_first, hfirst]
  show GetLease c b.id = none
  exact hnol

/-- Two matched bids, with a lease stored only under the key of the second. -/
def c9G : GroupID := ⟨4, 1, 1⟩

def c9O : OrderID := ⟨c9G, 1⟩

def c9ctx : Ctx := exec [ .createOrder c9G 0, .createBid c9O 1 100, .createBid c9O 2 100,
  .markBidMatched ⟨c9O, 1⟩, .markBidMatched ⟨c9O, 2⟩, .createLease ⟨c9O, 2⟩ ]

/-- Witness for C9: the first matched bid has no lease, so found=false, even
though a later matched bid does have a lease stored under its ID. -/
theorem leaseForOrder_stops_witness :
    LeaseForOrder c9ctx c9O = none ∧
    GetBid c9ctx ⟨c9O, 2⟩ = some ⟨⟨c9O, 2⟩, 100, .matched⟩ ∧
    GetLease c9ctx ⟨c9O, 2⟩ = some ⟨⟨c9O, 2⟩, 100, .active⟩ := by
  refine ⟨leaseForOrder_stops_at_first c9ctx c9O ⟨⟨c9O, 1⟩, 100, .matched⟩
    (by decide) (by decide) (by decide), by decide, by decide⟩

/-- C7: on a Lost bid, `MarkClosed` is a no-op — the stored state stays Lost,
the context (store and events) is unchanged — and `BidClosed` is emitted
exactly on the state-changing path of `MarkClosed`. -/
theorem bidLost_markClosed_noop (c : Ctx) (b : Bid) :
    (b.state = .lost → OnBidClosed c b = c) ∧
    ((OnBidClosed c b).events =
      c.events ++ (if b.state = .closed ∨ b.state = .lost then [] else [Event.bidClosed b.id])) := by
  constructor
  · intro h
    exact onBidClosed_noop c b (Or.inr h)
  · unfold OnBidClosed
    rcases hb : b.state <;> simp [emit, updateBid]

/-- Witness for C7 at a concrete Lost bid. -/
theorem bidLost_markClosed_noop_witness :
    OnBidClosed emptyCtx ⟨⟨⟨⟨9, 0, 0⟩, 1⟩, 1⟩, 5, .lost⟩ = emptyCtx ∧
    (OnBidClosed emptyCtx ⟨⟨⟨⟨9, 0, 0⟩, 1⟩, 1⟩, 5, .lost⟩).events = [] := by
  obtain ⟨h1, _⟩ := bidLost_markClosed_noop emptyCtx ⟨⟨⟨⟨9, 0, 0⟩, 1⟩, 1⟩, 5, .lost⟩
  exact ⟨h1 rfl, by rw [h1 rfl]; rfl⟩

/-- C8: on a Lease in InsufficientFunds, both `MarkInsufficientFunds` and
`MarkClosed` are no-ops: the context (store and events) is unchanged, so the
Lease can never reach Closed through `MarkClosed`. -/
theorem leaseIF_terminal (c : Ctx) (x : Lease) (h : x.state = .insufficientFunds) :
    OnInsufficientFunds c x = c ∧ OnLeaseClosed c x = c :=
  ⟨onInsufficientFunds_noop c x (Or.inr h), onLeaseClosed_noop c x (Or.inr h)⟩

/-- Witness for C8 at a concrete InsufficientFunds lease. -/
theorem leaseIF_terminal_witness :
    OnInsufficientFunds emptyCtx ⟨⟨⟨⟨9, 0, 0⟩, 1⟩, 1⟩, 5, .insufficientFunds⟩ = emptyCtx ∧
    OnLeaseClosed emptyCtx ⟨⟨⟨⟨9, 0, 0⟩, 1⟩, 1⟩, 5, .insufficientFunds⟩ = emptyCtx :=
  leaseIF_terminal emptyCtx ⟨⟨⟨⟨9, 0, 0⟩, 1⟩, 1⟩, 5, .insufficientFunds⟩ rfl

/-- A group used to exhibit that Closed is not terminal in the code. -/
def c5G : GroupID := ⟨5, 1, 1⟩

def c5O : OrderID := ⟨c5G, 1⟩

def c5B : BidID := ⟨c5O, 1⟩

/-- C5, failing input: the marking functions carry `TODO: assert state
transition` and write unconditionally, so `OnOrderMatched` on a Closed order
stores State = Matched, and `OnBidMatched` on a Closed bid stores
State = Matched — Closed is not terminal in the code. -/
theorem closed_not_terminal_bug :
    GetOrder (exec [Op.createOrder c5G 0, .markOrderClosed c5O, .markOrderMatched c5O]) c5O =
      some ⟨c5O, 0, .matched, 5⟩ ∧
    GetBid (exec [Op.createOrder c5G 0, .createBid c5O 1 100, .markBidClosed c5B,
      .markBidMatched c5B]) c5B = some ⟨c5B, 100, .matched⟩ ∧
    OrderState.matched ≠ OrderState.closed ∧
    BidState.matched ≠ BidState.closed := by decide

/-- A group used to exhibit the unchecked duplicate create. -/
def c6G : GroupID := ⟨6, 1, 1⟩

def c6O : OrderID := ⟨c6G, 1⟩

/-- C6, failing input: `CreateBid` carries `XXX TODO: check not overwrite`
and performs `store.Set` unconditionally, so creating a bid for an
(Order, Provider) pair that already has a record silently replaces it (the
stored price changes from 100 to 200) and no error is reported — the Go
function has no error return at all. -/
theorem duplicate_create_overwrites_bug :
    GetBid (exec [Op.createOrder c6G 0, .createBid c6O 7 100]) ⟨c6O, 7⟩ =
      some ⟨⟨c6O, 7⟩, 100, .opened⟩ ∧
    GetBid (exec [Op.createOrder c6G 0, .createBid c6O 7 100, .createBid c6O 7 200]) ⟨c6O, 7⟩ =
      some ⟨⟨c6O, 7⟩, 200, .opened⟩ := by decide

/-- C10: every state-marking operation touches at most the single store key
derived from the given entity's ID — the other two store sections and every
other key of its own section are unchanged — and the value written differs
from the input entity only in the State field (`withState` preserves ID,
Price, Spec and StartAt). -/
theorem mark_frame (c : Ctx) (o : Order) (b : Bid) (x : Lease) :
    ((OnOrderMatched c o).bids = c.bids ∧ (OnOrderMatched c o).leases = c.leases ∧
      GetOrder (OnOrderMatched c o) o.id = some (o.withState .matched) ∧
      (∀ j : OrderID, j ≠ o.id → GetOrder (OnOrderMatched c o) j = GetOrder c j)) ∧
    ((OnOrderClosed c o).bids = c.bids ∧ (OnOrderClosed c o).leases = c.leases ∧
      (GetOrder (OnOrderClosed c o) o.id = GetOrder c o.id ∨
        GetOrder (OnOrderClosed c o) o.id = some (o.withState .closed)) ∧
      (∀ j : OrderID, j ≠ o.id → GetOrder (OnOrderClosed c o) j = GetOrder c j)) ∧
    ((OnBidMatched c b).orders = c.orders ∧ (OnBidMatched c b).leases = c.leases ∧
      GetBid (OnBidMatched c b) b.id = some (b.withState .matched) ∧
      (∀ j : BidID, j ≠ b.id → GetBid (OnBidMatched c b) j = GetBid c j)) ∧
    ((OnBidLost c b).orders = c.orders ∧ (OnBidLost c b).leases = c.leases ∧
      GetBid (OnBidLost c b) b.id = some (b.withState .lost) ∧
      (∀ j : BidID, j ≠ b.id → GetBid (OnBidLost c b) j = GetBid c j)) ∧
    ((OnBidClosed c b).orders = c.orders ∧ (OnBidClosed c b).leases = c.leases ∧
      (GetBid (OnBidClosed c b) b.id = GetBid c b.id ∨
        GetBid (OnBidClosed c b) b.id = some (b.withState .closed)) ∧
      (∀ j : BidID, j ≠ b.id → GetBid (OnBidClosed c b) j = GetBid c j)) ∧
    ((OnInsufficientFunds c x).orders = c.orders ∧ (OnInsufficientFunds c x).bids = c.bids ∧
      (GetLease (OnInsufficientFunds c x) x.id = GetLease c x.id ∨
        GetLease (OnInsufficientFunds c x) x.id = some (x.withState .insufficientFunds)) ∧
      (∀ j : LeaseID, j ≠ x.id → GetLease (OnInsufficientFunds c x) j = GetLease c j)) ∧
    ((OnLeaseClosed c x).orders = c.orders ∧ (OnLeaseClosed c x).bids = c.bids ∧
      (GetLease (OnLeaseClosed c x) x.id = GetLease c x.id ∨
        GetLease (OnLeaseClosed c x) x.id = some (x.withState .closed)) ∧
      (∀ j : LeaseID, j ≠ x.id → GetLease (OnLeaseClosed c x) j = GetLease c j)) := by
  refine ⟨⟨rfl, rfl, ?_, ?_⟩, ⟨onOrderClosed_bids c o, onOrderClosed_leases c o, ?_, ?_⟩,
    ⟨rfl, rfl, ?_, ?_⟩, ⟨rfl, rfl, ?_, ?_⟩,
    ⟨onBidClosed_orders c b, onBidClosed_leases c b, ?_, ?_⟩, ?_, ?_⟩
  · exact getOrder_updateOrder_self c (o.withState .matched)
  · intro j hj
    exact getOrder_updateOrder_ne c (o.withState .matched) hj
  · unfold OnOrderClosed
    rcases ho : o.state
    · exact Or.inr (getOrder_updateOrder_self c (o.withState .closed))
    · exact Or.inr (getOrder_updateOrder_self c (o.withState .closed))
    · exact Or.inl rfl
  · intro j hj
    unfold OnOrderClosed
    rcases ho : o.state
    · exact getOrder_updateOrder_ne c (o.withState .closed) hj
    · exact getOrder_updateOrder_ne c (o.withState .closed) hj
    · rfl
  · exact getBid_updateBid_self c (b.withState .matched)
  · intro j hj
    exact getBid_updateBid_ne c (b.withState .matched) hj
  · exact getBid_updateBid_self c (b.withState .lost)
  · intro j hj
    exact getBid_updateBid_ne c (b.withState .lost) hj
  · unfold OnBidClosed
    rcases hb : b.state
    · exact Or.inr (getBid_updateBid_self c (b.withState .closed))
    · exact Or.inr (getBid_updateBid_self c (b.withState .closed))
    · exact Or.inl rfl
    · exact Or.inl rfl
  · intro j hj
    unfold OnBidClosed
    rcases hb : b.state
    · exact getBid_updateBid_ne c (b.withState .closed) hj
    · exact getBid_updateBid_ne c (b.withState .closed) hj
    · rfl
    · rfl
  · refine ⟨?_, ?_, ?_, ?_⟩
    · unfold OnInsufficientFunds
      rcases hx : x.state <;> rfl
    · unfold OnInsufficientFunds
      rcases hx : x.state <;> rfl
    · unfold OnInsufficientFunds
      rcases hx : x.state
      · exact Or.inr (getLease_updateLease_self c (x.withState .insufficientFunds))
      · exact Or.inl rfl
      · exact Or.inl rfl
    · intro j hj
      unfold OnInsufficientFunds
      rcases hx : x.state
      · exact getLease_updateLease_ne c (x.withState .insufficientFunds) hj
      · rfl
      · rfl
  · refine ⟨onLeaseClosed_orders c x, onLeaseClosed_bids c x, ?_, ?_⟩
    · unfold OnLeaseClosed
      rcases hx : x.state
      · exact Or.inr (getLease_updateLease_self c (x.withState .closed))
      · exact Or.inl rfl
      · exact Or.inl rfl
    · intro j hj
      unfold OnLeaseClosed
      rcases hx : x.state
      · exact getLease_updateLease_ne c (x.withState .closed) hj
      · rfl
      · rfl

/-! C1: sequence allocation.  Invariant: the store sections are sorted and
every stored order's `oseq` is at most the number of stored orders of its
group, so the `oseq` computed by `CreateOrder` is always a fresh key. -/

/-- Every stored order's sequence number is bounded by the number of stored
orders of its group. -/
def Bound (c : Ctx) : Prop :=
  ∀ o ∈ c.orders, o.id.oseq ≤ countOrdersG c o.id.gid

/-- The reachable-state invariant used for C1. -/
def Inv (c : Ctx) : Prop := WF c ∧ Bound c

theorem countP_congr_list {β : Type} {p q : β → Bool} :
    ∀ {l : List β}, (∀ a ∈ l, p a = q a) → l.countP p = l.countP q := by
  intro l
  induction l with
  | nil => intro _; rfl
  | cons x xs ih =>
    intro h
    rw [List.countP_cons, List.countP_cons, h x (by simp), ih (fun a ha => h a (by simp [ha]))]

theorem countOrdersG_map (c : Ctx) (f : Order → Order) (hf : ∀ y, (f y).id = y.id)
    (G : GroupID) :
    (c.orders.map f).countP (fun o => decide (o.id.gid = G)) = countOrdersG c G := by
  unfold countOrdersG
  rw [List.countP_map]
  exact countP_congr_list (fun a ha => by show decide ((f a).id.gid = G) = _; rw [hf])

theorem createOrder_fst (c : Ctx) (gid : GroupID) (spec : Nat) :
    (CreateOrder c gid spec).1 =
      emit (updateOrder c ⟨⟨gid, (countOrdersG c gid + 1) % u32Mod⟩, spec, .opened,
        c.blockHeight + orderTTL⟩)
        (.orderCreated ⟨gid, (countOrdersG c gid + 1) % u32Mod⟩) := by
  unfold CreateOrder
  rw [createOrder_count]

theorem createOrder_fresh (c : Ctx) (gid : GroupID) (hB : Bound c) :
    ∀ y ∈ c.orders, y.id ≠ (⟨gid, countOrdersG c gid + 1⟩ : OrderID) := by
  intro y hy h
  have h1 := hB y hy
  rw [h] at h1
  have h2 : countOrdersG c gid + 1 ≤ countOrdersG c gid := h1
  omega

/-- Replacing a stored order by a same-ID value preserves the invariant and
the per-group counts. -/
theorem replaceOrder_step (c : Ctx) (o : Order) (v : Order) (hm : o ∈ c.orders)
    (hv : v.id = o.id) (hso : SortedKeys (fun x : Order => x.id) cmpOrderID c.orders) :
    insOrder v c.orders =
      c.orders.map (fun y => if y.id = o.id then v else y) := by
  unfold insOrder
  have h := sinsert_replace cmpOrderID_eq_iff cmpOrderID_gt_iff cmpOrderID_lt_trans
    hso hm hv.symm
  rw [h]
  exact List.map_congr_left (fun y hy => by rw [hv])

theorem insOrder_sorted {l : List Order} (o : Order)
    (hs : SortedKeys (fun x : Order => x.id) cmpOrderID l) :
    SortedKeys (fun x : Order => x.id) cmpOrderID (insOrder o l) :=
  sinsert_sorted cmpOrderID_eq_iff cmpOrderID_gt_iff cmpOrderID_lt_trans o hs

/-- `CreateOrder` preserves the invariant, wrap or no wrap: a fresh insert
raises the group's count to at least the (possibly wrapped) new `oseq`, and
an insert at an already-used key replaces in place, where the old value's
bound covers the new one. -/
theorem createOrder_inv (c : Ctx) (gid : GroupID) (spec : Nat) (hInv : Inv c) :
    Inv (CreateOrder c gid spec).1 := by
  obtain ⟨⟨hso, hsb, hsl⟩, hB⟩ := hInv
  have hfst : (CreateOrder c gid spec).1.orders =
      insOrder ⟨⟨gid, (countOrdersG c gid + 1) % u32Mod⟩, spec, .opened,
        c.blockHeight + orderTTL⟩ c.orders := by
    rw [createOrder_fst]
    rfl
  have hbids : (CreateOrder c gid spec).1.bids = c.bids := by
    rw [createOrder_fst]
    rfl
  have hleas : (CreateOrder c gid spec).1.leases = c.leases := by
    rw [createOrder_fst]
    rfl
  by_cases hfr : ∀ x ∈ c.orders,
      x.id ≠ (⟨gid, (countOrdersG c gid + 1) % u32Mod⟩ : OrderID)
  · have hcnt : ∀ G, countOrdersG (CreateOrder c gid spec).1 G =
        countOrdersG c G + (if gid = G then 1 else 0) := by
      intro G
      unfold countOrdersG
      rw [hfst]
      unfold insOrder
      rw [sinsert_fresh_countP cmpOrderID_eq_iff _ (fun x hx => hfr x hx)]
      by_cases h : gid = G <;> simp [h] <;> rfl
    refine ⟨⟨?_, by rw [hbids]; exact hsb, by rw [hleas]; exact hsl⟩, ?_⟩
    · show SortedKeys (fun x : Order => x.id) cmpOrderID (CreateOrder c gid spec).1.orders
      rw [hfst]
      exact insOrder_sorted _ hso
    · intro o ho
      rw [hfst] at ho
      rcases mem_sinsert ho with h | h
      · subst h
        rw [hcnt]
        show (countOrdersG c gid + 1) % u32Mod ≤
          countOrdersG c gid + (if gid = gid then 1 else 0)
        rw [if_pos rfl]
        exact Nat.mod_le _ _
      · have h1 := hB o h
        rw [hcnt]
        by_cases h2 : gid = o.id.gid <;> simp [h2] <;> omega
  · have hex : ∃ x ∈ c.orders,
        x.id = (⟨gid, (countOrdersG c gid + 1) % u32Mod⟩ : OrderID) := by
      by_contra hno
      push_neg at hno
      exact hfr hno
    obtain ⟨x, hx, hxid⟩ := hex
    have hmap : (CreateOrder c gid spec).1.orders =
        c.orders.map (fun y => if y.id = x.id
          then (⟨⟨gid, (countOrdersG c gid + 1) % u32Mod⟩, spec, .opened,
            c.blockHeight + orderTTL⟩ : Order) else y) := by
      rw [hfst]
      exact replaceOrder_step c x _ hx hxid.symm hso
    have hf : ∀ y : Order, ((fun y => if y.id = x.id
        then (⟨⟨gid, (countOrdersG c gid + 1) % u32Mod⟩, spec, .opened,
          c.blockHeight + orderTTL⟩ : Order) else y) y).id = y.id := by
      intro y
      by_cases h : y.id = x.id
      · simp [h, ← hxid]
      · simp [h]
    have hcnt : ∀ G, countOrdersG (CreateOrder c gid spec).1 G = countOrdersG c G := by
      intro G
      unfold countOrdersG
      rw [hmap]
      exact countOrdersG_map c _ hf G
    refine ⟨⟨?_, by rw [hbids]; exact hsb, by rw [hleas]; exact hsl⟩, ?_⟩
    · show SortedKeys (fun x : Order => x.id) cmpOrderID (CreateOrder c gid spec).1.orders
      rw [hmap]
      exact sortedKeys_map hf hso
    · intro o ho
      rw [hmap] at ho
      obtain ⟨y, hy, hfy⟩ := List.mem_map.mp ho
      rw [hcnt]
      by_cases h : y.id = x.id
      · rw [if_pos h] at hfy
        have hxb := hB x hx
        rw [hxid] at hxb
        rw [← hfy]
        show (countOrdersG c gid + 1) % u32Mod ≤ countOrdersG c gid
        exact hxb
      · rw [if_neg h] at hfy
        rw [← hfy]
        exact hB y hy

/-- When fewer than 2^32 orders are stored for the group, the wrapped `oseq`
is exactly count + 1 — a fresh key — so the create raises the group's count
by one and leaves other groups unchanged. -/
theorem createOrder_cnt (c : Ctx) (gid : GroupID) (spec : Nat) (hInv : Inv c)
    (hlt : countOrdersG c gid + 1 < u32Mod) :
    ∀ G, countOrdersG (CreateOrder c gid spec).1 G =
      countOrdersG c G + (if gid = G then 1 else 0) := by
  obtain ⟨⟨hso, hsb, hsl⟩, hB⟩ := hInv
  have hmod : (countOrdersG c gid + 1) % u32Mod = countOrdersG c gid + 1 :=
    Nat.mod_eq_of_lt hlt
  have hfresh := createOrder_fresh c gid hB
  intro G
  unfold countOrdersG
  rw [createOrder_fst]
  show (insOrder ⟨⟨gid, (countOrdersG c gid + 1) % u32Mod⟩, spec, .opened,
    c.blockHeight + orderTTL⟩ c.orders).countP (fun o => decide (o.id.gid = G)) = _
  rw [hmod]
  unfold insOrder
  rw [sinsert_fresh_countP cmpOrderID_eq_iff _ (fun x hx => hfresh x hx)]
  by_cases h : gid = G <;> simp [h] <;> rfl

/-- A `CreateOrder` for one group never changes another group's order count,
wrap or no wrap: a fresh insert adds an order of the creating group, and an
insert at an already-used key replaces an order of that same group. -/
theorem createOrder_cnt_other (c : Ctx) (gid : GroupID) (spec : Nat) (hInv : Inv c)
    (G : GroupID) (hne : gid ≠ G) :
    countOrdersG (CreateOrder c gid spec).1 G = countOrdersG c G := by
  obtain ⟨⟨hso, hsb, hsl⟩, hB⟩ := hInv
  unfold countOrdersG
  rw [createOrder_fst]
  show (insOrder ⟨⟨gid, (countOrdersG c gid + 1) % u32Mod⟩, spec, .opened,
    c.blockHeight + orderTTL⟩ c.orders).countP (fun o => decide (o.id.gid = G)) = _
  by_cases hfr : ∀ x ∈ c.orders,
      x.id ≠ (⟨gid, (countOrdersG c gid + 1) % u32Mod⟩ : OrderID)
  · unfold insOrder
    rw [sinsert_fresh_countP cmpOrderID_eq_iff _ (fun x hx => hfr x hx)]
    simp [hne]
  · have hex : ∃ x ∈ c.orders,
        x.id = (⟨gid, (countOrdersG c gid + 1) % u32Mod⟩ : OrderID) := by
      by_contra hno
      push_neg at hno
      exact hfr hno
    obtain ⟨x, hx, hxid⟩ := hex
    rw [replaceOrder_step c x _ hx hxid.symm hso]
    refine countOrdersG_map c _ (fun y => ?_) G
    by_cases h : y.id = x.id
    · simp [h, ← hxid]
    · simp [h]

/-- Bound is preserved by any ID-preserving rewrite of the order section. -/
theorem bound_of_map (c c2 : Ctx) (f : Order → Order) (hf : ∀ y, (f y).id = y.id)
    (hor : c2.orders = c.orders.map f) (hB : Bound c) : Bound c2 := by
  intro o ho
  rw [hor] at ho
  obtain ⟨y, hy, hfy⟩ := List.mem_map.mp ho
  have h1 := hB y hy
  have hcnt : countOrdersG c2 o.id.gid = countOrdersG c o.id.gid := by
    unfold countOrdersG
    rw [hor]
    exact countOrdersG_map c f hf o.id.gid
  rw [hcnt, ← hfy, hf]
  exact h1

theorem bound_of_orders_eq (c c2 : Ctx) (h : c2.orders = c.orders) (hB : Bound c) :
    Bound c2 := by
  intro o ho
  rw [h] at ho
  have h1 := hB o ho
  unfold countOrdersG
  rw [h]
  exact h1

theorem insBid_sorted {l : List Bid} (b : Bid)
    (hs : SortedKeys (fun x : Bid => x.id) cmpBidID l) :
    SortedKeys (fun x : Bid => x.id) cmpBidID (insBid b l) :=
  sinsert_sorted cmpBidID_eq_iff cmpBidID_gt_iff cmpBidID_lt_trans b hs

theorem insLease_sorted {l : List Lease} (x : Lease)
    (hs : SortedKeys (fun y : Lease => y.id) cmpBidID l) :
    SortedKeys (fun y : Lease => y.id) cmpBidID (insLease x l) :=
  sinsert_sorted cmpBidID_eq_iff cmpBidID_gt_iff cmpBidID_lt_trans x hs

theorem onBidClosed_bids_sorted (c : Ctx) (b : Bid)
    (hs : SortedKeys (fun x : Bid => x.id) cmpBidID c.bids) :
    SortedKeys (fun x : Bid => x.id) cmpBidID (OnBidClosed c b).bids := by
  unfold OnBidClosed
  rcases hb : b.state
  · exact insBid_sorted _ hs
  · exact insBid_sorted _ hs
  · exact hs
  · exact hs

theorem onInsufficientFunds_orders (c : Ctx) (x : Lease) :
    (OnInsufficientFunds c x).orders = c.orders := by
  unfold OnInsufficientFunds
  rcases hx : x.state <;> rfl

theorem onInsufficientFunds_bids (c : Ctx) (x : Lease) :
    (OnInsufficientFunds c x).bids = c.bids := by
  unfold OnInsufficientFunds
  rcases hx : x.state <;> rfl

theorem onInsufficientFunds_leases_sorted (c : Ctx) (x : Lease)
    (hs : SortedKeys (fun y : Lease => y.id) cmpBidID c.leases) :
    SortedKeys (fun y : Lease => y.id) cmpBidID (OnInsufficientFunds c x).leases := by
  unfold OnInsufficientFunds
  rcases hx : x.state
  · exact insLease_sorted _ hs
  · exact hs
  · exact hs

theorem onLeaseClosed_leases_sorted (c : Ctx) (x : Lease)
    (hs : SortedKeys (fun y : Lease => y.id) cmpBidID c.leases) :
    SortedKeys (fun y : Lease => y.id) cmpBidID (OnLeaseClosed c x).leases := by
  unfold OnLeaseClosed
  rcases hx : x.state
  · exact insLease_sorted _ hs
  · exact hs
  · exact hs

/-- Orders-preserving operations preserve the invariant and the counts. -/
theorem inv_of_sections (c c2 : Ctx) (ho : c2.orders = c.orders)
    (hsb2 : SortedKeys (fun x : Bid => x.id) cmpBidID c2.bids)
    (hsl2 : SortedKeys (fun x : Lease => x.id) cmpBidID c2.leases)
    (hInv : Inv c) : Inv c2 ∧ ∀ G, countOrdersG c2 G = countOrdersG c G := by
  obtain ⟨⟨hso, _, _⟩, hB⟩ := hInv
  refine ⟨⟨⟨by rw [ho]; exact hso, hsb2, hsl2⟩, bound_of_orders_eq c c2 ho hB⟩,
    fun G => by unfold countOrdersG; rw [ho]⟩

/-- ID-preserving rewrites of the order section preserve the invariant and
the counts. -/
theorem inv_of_map (c c2 : Ctx) (f : Order → Order) (hf : ∀ y, (f y).id = y.id)
    (hor : c2.orders = c.orders.map f)
    (hsb2 : SortedKeys (fun x : Bid => x.id) cmpBidID c2.bids)
    (hsl2 : SortedKeys (fun x : Lease => x.id) cmpBidID c2.leases)
    (hInv : Inv c) : Inv c2 ∧ ∀ G, countOrdersG c2 G = countOrdersG c G := by
  obtain ⟨⟨hso, _, _⟩, hB⟩ := hInv
  refine ⟨⟨⟨?_, hsb2, hsl2⟩, bound_of_map c c2 f hf hor hB⟩, fun G => ?_⟩
  · rw [hor]
    exact sortedKeys_map hf hso
  · unfold countOrdersG
    rw [hor]
    exact countOrdersG_map c f hf G

/-- One trace step preserves the invariant, and changes the per-group order
count exactly when the step is a `CreateOrder` for that group. -/
theorem step_spec (c : Ctx) (op : Op) (hInv : Inv c) :
    Inv (step c op) ∧
    (∀ G, (∀ g s, op = Op.createOrder g s → g = G → countOrdersG c G + 1 < u32Mod) →
      countOrdersG (step c op) G =
        countOrdersG c G + (match op with
          | .createOrder g _ => if g = G then 1 else 0
          | _ => 0)) := by
  obtain ⟨⟨hso, hsb, hsl⟩, hB⟩ := hInv
  cases op with
  | createOrder gid spec =>
    refine ⟨createOrder_inv c gid spec ⟨⟨hso, hsb, hsl⟩, hB⟩, fun G hG => ?_⟩
    by_cases h : gid = G
    · have hlt : countOrdersG c gid + 1 < u32Mod := by
        rw [h]
        exact hG gid spec rfl h
      exact createOrder_cnt c gid spec ⟨⟨hso, hsb, hsl⟩, hB⟩ hlt G
    · show countOrdersG (CreateOrder c gid spec).1 G =
        countOrdersG c G + (if gid = G then 1 else 0)
      rw [createOrder_cnt_other c gid spec ⟨⟨hso, hsb, hsl⟩, hB⟩ G h, if_neg h]
      omega
  | createBid oid provider price =>
    have h := inv_of_sections c (CreateBid c oid provider price) rfl
      (insBid_sorted _ hsb) hsl ⟨⟨hso, hsb, hsl⟩, hB⟩
    exact ⟨h.1, fun G _ => h.2 G⟩
  | createLease bid =>
    have hstep : step c (Op.createLease bid) =
        (match GetBid c bid with
         | some b => CreateLease c b
         | none => c) := rfl
    rw [hstep]
    rcases hg : GetBid c bid with _ | b
    · exact ⟨⟨⟨hso, hsb, hsl⟩, hB⟩, fun G _ => rfl⟩
    · have h := inv_of_sections c (CreateLease c b) rfl hsb
        (insLease_sorted _ hsl) ⟨⟨hso, hsb, hsl⟩, hB⟩
      exact ⟨h.1, fun G _ => h.2 G⟩
  | markOrderMatched oid =>
    have hstep : step c (Op.markOrderMatched oid) =
        (match GetOrder c oid with
         | some o => OnOrderMatched c o
         | none => c) := rfl
    rw [hstep]
    rcases hg : GetOrder c oid with _ | o
    · exact ⟨⟨⟨hso, hsb, hsl⟩, hB⟩, fun G _ => rfl⟩
    · obtain ⟨hom, _⟩ := kfind_eq_some hg
      have hmap : (OnOrderMatched c o).orders =
          c.orders.map (fun y => if y.id = o.id then o.withState .matched else y) :=
        replaceOrder_step c o (o.withState .matched) hom rfl hso
      have h := inv_of_map c (OnOrderMatched c o)
        (fun y => if y.id = o.id then o.withState .matched else y)
        (fun y => by by_cases h2 : y.id = o.id <;> simp [h2, orderWithState_id])
        hmap hsb hsl ⟨⟨hso, hsb, hsl⟩, hB⟩
      exact ⟨h.1, fun G _ => h.2 G⟩
  | markOrderClosed oid =>
    have hstep : step c (Op.markOrderClosed oid) =
        (match GetOrder c oid with
         | some o => OnOrderClosed c o
         | none => c) := rfl
    rw [hstep]
    rcases hg : GetOrder c oid with _ | o
    · exact ⟨⟨⟨hso, hsb, hsl⟩, hB⟩, fun G _ => rfl⟩
    · obtain ⟨hom, _⟩ := kfind_eq_some hg
      have h := inv_of_map c (OnOrderClosed c o)
        (fun y => if y.id = o.id then y.withState .closed else y)
        (fun y => by by_cases h2 : y.id = o.id <;> simp [h2, orderWithState_id])
        (onOrderClosed_orders_map c o hso hom)
        (by rw [onOrderClosed_bids]; exact hsb)
        (by rw [onOrderClosed_leases]; exact hsl) ⟨⟨hso, hsb, hsl⟩, hB⟩
      exact ⟨h.1, fun G _ => h.2 G⟩
  | markBidMatched bid =>
    have hstep : step c (Op.markBidMatched bid) =
        (match GetBid c bid with
         | some b => OnBidMatched c b
         | none => c) := rfl
    rw [hstep]
    rcases hg : GetBid c bid with _ | b
    · exact ⟨⟨⟨hso, hsb, hsl⟩, hB⟩, fun G _ => rfl⟩
    · have h := inv_of_sections c (OnBidMatched c b) rfl
        (insBid_sorted _ hsb) hsl ⟨⟨hso, hsb, hsl⟩, hB⟩
      exact ⟨h.1, fun G _ => h.2 G⟩
  | markBidLost bid =>
    have hstep : step c (Op.markBidLost bid) =
        (match GetBid c bid with
         | some b => OnBidLost c b
         | none => c) := rfl
    rw [hstep]
    rcases hg : GetBid c bid with _ | b
    · exact ⟨⟨⟨hso, hsb, hsl⟩, hB⟩, fun G _ => rfl⟩
    · have h := inv_of_sections c (OnBidLost c b) rfl
        (insBid_sorted _ hsb) hsl ⟨⟨hso, hsb, hsl⟩, hB⟩
      exact ⟨h.1, fun G _ => h.2 G⟩
  | markBidClosed bid =>
    have hstep : step c (Op.markBidClosed bid) =
        (match GetBid c bid with
         | some b => OnBidClosed c b
         | none => c) := rfl
    rw [hstep]
    rcases hg : GetBid c bid with _ | b
    · exact ⟨⟨⟨hso, hsb, hsl⟩, hB⟩, fun G _ => rfl⟩
    · have h := inv_of_sections c (OnBidClosed c b) (onBidClosed_orders c b)
        (onBidClosed_bids_sorted c b hsb) (by rw [onBidClosed_leases]; exact hsl)
        ⟨⟨hso, hsb, hsl⟩, hB⟩
      exact ⟨h.1, fun G _ => h.2 G⟩
  | markInsufficientFunds lid =>
    have hstep : step c (Op.markInsufficientFunds lid) =
        (match GetLease c lid with
         | some x => OnInsufficientFunds c x
         | none => c) := rfl
    rw [hstep]
    rcases hg : GetLease c lid with _ | x
    · exact ⟨⟨⟨hso, hsb, hsl⟩, hB⟩, fun G _ => rfl⟩
    · have h := inv_of_sections c (OnInsufficientFunds c x) (onInsufficientFunds_orders c x)
        (by rw [onInsufficientFunds_bids]; exact hsb)
        (onInsufficientFunds_leases_sorted c x hsl) ⟨⟨hso, hsb, hsl⟩, hB⟩
      exact ⟨h.1, fun G _ => h.2 G⟩
  | markLeaseClosed lid =>
    have hstep : step c (Op.markLeaseClosed lid) =
        (match GetLease c lid with
         | some x => OnLeaseClosed c x
         | none => c) := rfl
    rw [hstep]
    rcases hg : GetLease c lid with _ | x
    · exact ⟨⟨⟨hso, hsb, hsl⟩, hB⟩, fun G _ => rfl⟩
    · have h := inv_of_sections c (OnLeaseClosed c x) (onLeaseClosed_orders c x)
        (by rw [onLeaseClosed_bids]; exact hsb)
        (onLeaseClosed_leases_sorted c x hsl) ⟨⟨hso, hsb, hsl⟩, hB⟩
      exact ⟨h.1, fun G _ => h.2 G⟩
  | closeGroup gid =>
    have hwf2 := onGroupClosed_wf c gid ⟨hso, hsb, hsl⟩
    have h := inv_of_map c (OnGroupClosed c gid)
      (fun y => if y.id.gid = gid then y.withState .closed else y)
      (fun y => by by_cases h2 : y.id.gid = gid <;> simp [h2, orderWithState_id])
      (onGroupClosed_orders_map c gid ⟨hso, hsb, hsl⟩)
      hwf2.2.1 hwf2.2.2 ⟨⟨hso, hsb, hsl⟩, hB⟩
    exact ⟨h.1, fun G _ => h.2 G⟩

theorem inv_empty : Inv emptyCtx := by
  refine ⟨⟨List.Pairwise.nil, List.Pairwise.nil, List.Pairwise.nil⟩, ?_⟩
  intro o ho
  cases ho

theorem createdCount_cons (op : Op) (t2 : List Op) (G : GroupID) :
    createdCount (op :: t2) G =
      (match op with
        | Op.createOrder g _ => if g = G then 1 else 0
        | _ => 0) + createdCount t2 G := by
  unfold createdCount
  rw [List.countP_cons]
  cases op with
  | createOrder g spec =>
    by_cases h : g = G <;> simp [h] <;> omega
  | createBid oid provider price => simp
  | createLease bid => simp
  | markOrderMatched oid => simp
  | markOrderClosed oid => simp
  | markBidMatched bid => simp
  | markBidLost bid => simp
  | markBidClosed bid => simp
  | markInsufficientFunds lid => simp
  | markLeaseClosed lid => simp
  | closeGroup gid => simp

theorem exec_spec : ∀ (t : List Op) (c : Ctx), Inv c →
    Inv (t.foldl step c) ∧
    (∀ G, countOrdersG c G + createdCount t G < u32Mod →
      countOrdersG (t.foldl step c) G = countOrdersG c G + createdCount t G) := by
  intro t
  induction t with
  | nil =>
    intro c h
    refine ⟨h, fun G _ => ?_⟩
    unfold createdCount
    simp
  | cons op t2 ih =>
    intro c h
    have h1 := (step_spec c op h).1
    rw [List.foldl_cons]
    refine ⟨(ih (step c op) h1).1, fun G hG => ?_⟩
    rw [createdCount_cons op t2 G] at hG
    have hpre : ∀ g s, op = Op.createOrder g s → g = G → countOrdersG c G + 1 < u32Mod := by
      intro g s hop hg
      subst hop
      rw [hg] at hG
      simp at hG
      omega
    have h2 := (step_spec c op h).2 G hpre
    have h3 := (ih (step c op) h1).2 G (by rw [h2]; omega)
    rw [h3, h2, createdCount_cons op t2 G]
    omega

theorem inv_exec (t : List Op) : Inv (exec t) :=
  (exec_spec t emptyCtx inv_empty).1

theorem cnt_exec (t : List Op) (G : GroupID) (h : createdCount t G < u32Mod) :
    countOrdersG (exec t) G = createdCount t G := by
  have h0 : countOrdersG emptyCtx G = 0 := rfl
  have h2 := (exec_spec t emptyCtx inv_empty).2 G (by omega)
  unfold exec
  rw [h2]
  omega

theorem createOrder_snd (c : Ctx) (gid : GroupID) (spec : Nat) :
    (CreateOrder c gid spec).2 =
      ⟨⟨gid, (countOrdersG c gid + 1) % u32Mod⟩, spec, .opened,
        c.blockHeight + orderTTL⟩ := by
  unfold CreateOrder
  rw [createOrder_count]

/-- C1 (amended): `CreateOrder` accumulates `oseq` in the wrapping 32-bit
counter of the source.  As long as the count of all Orders ever created for
`G` (open or closed — nothing is ever deleted) stays below 2^32 so that the
counter never wraps, `CreateOrder(G, spec)` assigns the new Order an `oseq`
equal to one greater than that count and stores the new Order under its ID,
and successive `CreateOrder(G, …)` calls yield strictly increasing `oseq`
values, even with closures of earlier orders of `G` interleaved in between;
at the 2^32-th creation for a group the counter wraps to 0 and both
properties fail. -/
theorem createOrder_oseq_strict_mono (t u : List Op) (G : GroupID) (s1 s2 : Nat)
    (h : createdCount (t ++ Op.createOrder G s1 :: u) G + 1 < u32Mod) :
    (CreateOrder (exec t) G s1).2.id.oseq = createdCount t G + 1 ∧
    GetOrder (CreateOrder (exec t) G s1).1 (CreateOrder (exec t) G s1).2.id =
      some (CreateOrder (exec t) G s1).2 ∧
    (CreateOrder (exec t) G s1).2.id.oseq <
      (CreateOrder (exec (t ++ Op.createOrder G s1 :: u)) G s2).2.id.oseq := by
  have hmono : createdCount t G + 1 ≤ createdCount (t ++ Op.createOrder G s1 :: u) G := by
    unfold createdCount
    rw [List.countP_append, List.countP_cons]
    simp
  have h1 : ∀ (v : List Op) (s : Nat), createdCount v G < u32Mod →
      (CreateOrder (exec v) G s).2.id.oseq = (createdCount v G + 1) % u32Mod := by
    intro v s hv
    rw [createOrder_oseq_eq, cnt_exec v G hv]
  have hA : (CreateOrder (exec t) G s1).2.id.oseq = createdCount t G + 1 := by
    rw [h1 t s1 (by omega), Nat.mod_eq_of_lt (by omega)]
  refine ⟨hA, ?_, ?_⟩
  · rw [createOrder_fst, createOrder_snd]
    exact getOrder_updateOrder_self (exec t) _
  · rw [hA, h1 (t ++ Op.createOrder G s1 :: u) s2 (by omega),
      Nat.mod_eq_of_lt (by omega)]
    omega

/-- Group used by the C1 witness. -/
def w1G : GroupID := ⟨7, 1, 1⟩

/-- Witness for C1: an empty prior trace and no interleaved operations, well
below the 2^32 wrap. -/
theorem createOrder_oseq_strict_mono_witness :
    createdCount ([] ++ Op.createOrder w1G 0 :: []) w1G + 1 < u32Mod ∧
    (CreateOrder (exec []) w1G 0).2.id.oseq = createdCount ([] : List Op) w1G + 1 ∧
    (CreateOrder (exec []) w1G 0).2.id.oseq <
      (CreateOrder (exec ([] ++ Op.createOrder w1G 0 :: [])) w1G 0).2.id.oseq := by
  have h := createOrder_oseq_strict_mono [] [] w1G 0 0 (by decide)
  exact ⟨by decide, h.1, h.2.2⟩

/-- Group used by the C1 counterexample. -/
def c1G : GroupID := ⟨8, 1, 1⟩

/-- A trace of 2^32 − 2 creations for the group. -/
def c1BigPre : List Op := List.replicate (u32Mod - 2) (Op.createOrder c1G 0)

/-- A trace of 2^32 − 1 creations for the group. -/
def c1Big : List Op := List.replicate (u32Mod - 1) (Op.createOrder c1G 0)

/-- Counterexample to C1 as stated: after 2^32 − 1 `CreateOrder` calls for
the group, the wrapping 32-bit counter assigns the next Order `oseq = 0`,
which is not one greater than the count of Orders ever created (2^32 − 1)
and is not greater than the `oseq` (2^32 − 1) assigned by the immediately
preceding `CreateOrder` call. -/
theorem createOrder_oseq_cex :
    createdCount c1Big c1G = u32Mod - 1 ∧
    (CreateOrder (exec c1Big) c1G 0).2.id.oseq = 0 ∧
    (CreateOrder (exec c1Big) c1G 0).2.id.oseq ≠ createdCount c1Big c1G + 1 ∧
    c1Big = c1BigPre ++ Op.createOrder c1G 0 :: [] ∧
    (CreateOrder (exec c1BigPre) c1G 0).2.id.oseq = u32Mod - 1 ∧
    ¬((CreateOrder (exec c1BigPre) c1G 0).2.id.oseq <
      (CreateOrder (exec c1Big) c1G 0).2.id.oseq) := by
  have hrep : ∀ (n : Nat), createdCount (List.replicate n (Op.createOrder c1G 0)) c1G = n := by
    intro n
    unfold createdCount
    rw [List.countP_eq_length.mpr, List.length_replicate]
    intro a ha
    rw [List.eq_of_mem_replicate ha]
    simp
  have hBig : createdCount c1Big c1G = u32Mod - 1 := hrep (u32Mod - 1)
  have hPre : createdCount c1BigPre c1G = u32Mod - 2 := hrep (u32Mod - 2)
  have hOseqBig : (CreateOrder (exec c1Big) c1G 0).2.id.oseq = 0 := by
    rw [createOrder_oseq_eq, cnt_exec _ _ (by rw [hBig]; decide), hBig]
    decide
  have hOseqPre : (CreateOrder (exec c1BigPre) c1G 0).2.id.oseq = u32Mod - 1 := by
    rw [createOrder_oseq_eq, cnt_exec _ _ (by rw [hPre]; decide), hPre]
    decide
  refine ⟨hBig, hOseqBig, ?_, ?_, hOseqPre, ?_⟩
  · rw [hOseqBig, hBig]
    decide
  · show List.replicate (u32Mod - 1) (Op.createOrder c1G 0) =
      List.replicate (u32Mod - 2) (Op.createOrder c1G 0) ++ Op.createOrder c1G 0 :: []
    have hn : u32Mod - 1 = (u32Mod - 2) + 1 := by decide
    rw [hn, List.replicate_succ']
  · rw [hOseqBig, hOseqPre]
    exact Nat.not_lt_zero _

end Market
